import Mathlib

/-!
Verification of the SCC tool (`scc.py`): directed-graph store, component
naming, and the component registry built by `strongly_connected_components`.

The graph store mirrors a `networkx.DiGraph` restricted to the attributes the
program uses: every node carries an id, an optional `label` attribute and an
optional `component` attribute; edges are ordered pairs of ids.  The SCC
decomposition itself is delegated by the program to the external networkx
library, so it is modelled from the spec here (an executable algorithm
computing the partition into strongly connected components in a deterministic
discovery order).
-/

set_option maxHeartbeats 1000000

/-- A node of the directed graph: its id, the optional `label` attribute and
the optional `component` attribute.  A node added by `add_node` carries a
label; a node auto-created by `add_edge` carries no attributes at all. -/
structure GNode where
  id : String
  label : Option String
  component : Option String
deriving DecidableEq, Repr

/-- The directed graph: the node list (in insertion order, ids unique by
construction) and the edge list. -/
structure Graph where
  nodes : List GNode
  edges : List (String × String)
deriving DecidableEq, Repr

/-- The empty graph, `nx.DiGraph()`. -/
def Graph.empty : Graph := ⟨[], []⟩

/-- Does the graph contain a node with this id? -/
def Graph.hasNode (g : Graph) (s : String) : Bool :=
  g.nodes.any (fun n => n.id == s)

/-- The node with this id, if any. -/
def Graph.findNode (g : Graph) (s : String) : Option GNode :=
  g.nodes.find? (fun n => n.id == s)

/-- The `label` attribute of the node with id `s`: `none` when the node is
absent or carries no label attribute (`graph.nodes[s]['label']` raises in
either case). -/
def Graph.label? (g : Graph) (s : String) : Option String :=
  (g.findNode s).bind (fun n => n.label)

/-- The `component` attribute of the node with id `s`, if present. -/
def Graph.tag? (g : Graph) (s : String) : Option String :=
  (g.findNode s).bind (fun n => n.component)

/-- The node ids, in insertion order. -/
def Graph.ids (g : Graph) : List String :=
  g.nodes.map (fun n => n.id)

/-- `graph.add_node(ident, label=label)`: overwrites the label of an existing
node (keeping its other attributes), else appends a fresh node carrying only
the label. -/
def Graph.add_node (g : Graph) (ident : String) (label : String) : Graph :=
  if g.hasNode ident then
    { g with nodes := g.nodes.map (fun n =>
        if n.id == ident then { n with label := some label } else n) }
  else
    { g with nodes := g.nodes ++ [⟨ident, some label, none⟩] }

/-- Auto-creation on edge insertion: an endpoint not yet present is appended
with an empty attribute dict — no label, no component. -/
def Graph.addEndpoint (g : Graph) (s : String) : Graph :=
  if g.hasNode s then g else { g with nodes := g.nodes ++ [⟨s, none, none⟩] }

/-- `graph.add_edge(t, h)`: auto-creates missing endpoints, then inserts the
edge (a duplicate edge has no additional effect). -/
def Graph.add_edge (g : Graph) (t h : String) : Graph :=
  let g2 := (g.addEndpoint t).addEndpoint h
  if (t, h) ∈ g2.edges then g2 else { g2 with edges := g2.edges ++ [(t, h)] }

/-- `read_graph`: build the graph from the ingested `(name, ident)` node
stream and `(tail, head)` edge stream (CSV splitting is the external
ingestion collaborator and is not modelled).  With `number` set the label
gets the id appended in parentheses, as in the source's f-string. -/
def read_graph (nodes : List (String × String)) (links : List (String × String))
    (number : Bool) : Graph :=
  let g := nodes.foldl (fun g p =>
    g.add_node p.2 (if number then p.1 ++ " (" ++ p.2 ++ ")" else p.1)) Graph.empty
  links.foldl (fun g p => g.add_edge p.1 p.2) g

/-- First value bound to key `k` in an association list (Python `dict.get`). -/
def dictLookup {α : Type} (d : List (String × α)) (k : String) : Option α :=
  (d.find? (fun p => p.1 == k)).map (fun p => p.2)

/-- Python `dict` assignment `d[k] = v`: replace in place when the key exists,
else append. -/
def dictInsert {α : Type} (d : List (String × α)) (k : String) (v : α) :
    List (String × α) :=
  if d.any (fun p => p.1 == k) then
    d.map (fun p => if p.1 == k then (k, v) else p)
  else d ++ [(k, v)]

/-- The `NAMING_METHODS` table of `scc.py`: every accepted spelling mapped to
its canonical strategy.  The Python comprehension iterates sets, but all keys
are distinct across strategies, so the resulting mapping is this one. -/
def NAMING_METHODS : List (String × String) :=
  [("string", "string"), ("str", "string"), ("s", "string"),
   ("initials", "initials"), ("init", "initials"), ("ini", "initials"),
   ("i", "initials"),
   ("cardinal", "cardinal"), ("card", "cardinal"), ("c", "cardinal"),
   ("ordinal", "ordinal"), ("ord", "ordinal"), ("o", "ordinal")]

/-- `NAMING_METHODS.get(method)`. -/
def namingMethod (method : String) : Option String :=
  dictLookup NAMING_METHODS method

/-- The exceptions `component_name` can raise: the `ValueError` for an
unrecognized method, the `KeyError` of a missing node or missing `label`
attribute, and the `IndexError` of `''[0]` on an empty label. -/
inductive NamingError where
  | unknownMethod (method : String)
  | missingLabel (node : String)
  | emptyLabel (node : String)
deriving DecidableEq, Repr

/-- The generator of the `initials` strategy:
`graph.nodes[s]['label'][0] for s in nodes`, evaluated left to right, the
first failure raising. -/
def initialsOf (g : Graph) : List String → Except NamingError (List Char)
  | [] => .ok []
  | s :: rest =>
    match g.label? s with
    | none => .error (.missingLabel s)
    | some l =>
      match l.toList with
      | [] => .error (.emptyLabel s)
      | c :: _ => (initialsOf g rest).map (fun cs => c :: cs)

/-- `component_name(graph, num, nodes=nodes, method=method)`.  The external
`num2words` collaborator is passed in as `n2w` (number and `to` argument to
word); `nodes` is the member sequence in the order the caller iterates it. -/
def component_name (n2w : Nat → String → String) (g : Graph) (num : Nat)
    (nodes : List String) (method : String) : Except NamingError String :=
  match namingMethod method with
  | some "string" => .ok ("C" ++ toString num)
  | some "initials" => (initialsOf g nodes).map String.mk
  | some "cardinal" => .ok (n2w (num + 1) "cardinal")
  | some "ordinal" => .ok (n2w (num + 1) "ordinal")
  | _ => .error (.unknownMethod method)

/-- Successors of `u`: heads of the edges whose tail is `u`. -/
def Graph.succs (g : Graph) (u : String) : List String :=
  (g.edges.filter (fun e => e.1 == u)).map (fun e => e.2)

/-- Bounded reachability: is there a directed path from `u` to `v` with at
most `k` edges? -/
def Graph.reachN (g : Graph) : Nat → String → String → Bool
  | 0, u, v => u == v
  | k + 1, u, v => u == v || (g.succs u).any (fun w => g.reachN k w v)

/-- Reachability decided by bounded search: on a well-formed graph a path
can always be shortened to a simple one, so `g.ids.length` edges suffice. -/
def Graph.reachB (g : Graph) (u v : String) : Bool :=
  g.reachN g.ids.length u v

/-- One directed edge from `u` to `v`. -/
def Graph.Step (g : Graph) (u v : String) : Prop :=
  (u, v) ∈ g.edges

/-- A directed path (possibly empty) from `u` to `v`. -/
def Graph.Reach (g : Graph) (u v : String) : Prop :=
  Relation.ReflTransGen g.Step u v

/-- Mutual reachability, decided by bounded search. -/
def Graph.mutualB (g : Graph) (u v : String) : Bool :=
  g.reachB u v && g.reachB v u

/-- The canonical representative of `u`: the first node id (in insertion
order) mutually reachable with `u`. -/
def Graph.canon (g : Graph) (u : String) : Option String :=
  g.ids.find? (fun w => g.mutualB w u)

/-- Modelled from the spec: the external
`nx.algorithms.strongly_connected_components(graph)` call is not part of the
repository, so the SCC engine is modelled as required by the spec — the
partition of the node set into strongly connected components, emitted in a
deterministic discovery order (seeded by the first member in insertion
order); the spec fixes the partition and leaves the order to the
implementation. -/
def Graph.sccList (g : Graph) : List (List String) :=
  (g.ids.filter (fun u => g.canon u == some u)).map
    (fun u => g.ids.filter (fun v => g.mutualB u v))

/-- Well-formedness maintained by the graph builders: ids are unique and
edges join existing nodes. -/
def Graph.WF (g : Graph) : Prop :=
  g.ids.Nodup ∧ ∀ e ∈ g.edges, e.1 ∈ g.ids ∧ e.2 ∈ g.ids

instance (g : Graph) : Decidable g.WF := by
  unfold Graph.WF; infer_instance

/-- `nx.set_node_attributes(graph, {node: name for node in members}, 'component')`:
write the tag `name` on every listed member. -/
def Graph.setTags (g : Graph) (members : List String) (name : String) : Graph :=
  { g with nodes := g.nodes.map (fun n =>
      if n.id ∈ members then { n with component := some name } else n) }

/-- `nx.get_node_attributes(graph, 'component')`: the nodes carrying a
component tag, with their tags, in node order. -/
def nodeComponentAttrs (g : Graph) : List (String × String) :=
  g.nodes.filterMap (fun n => n.component.map (fun c => (n.id, c)))

/-- One step of the tag branch of `strongly_connected_components`: add the
node `p.1` to the group of its tag `p.2` (`output.get` / `set.add` /
assignment). -/
def tagAdd (out : List (String × List String)) (p : String × String) :
    List (String × List String) :=
  match dictLookup out p.2 with
  | some s => dictInsert out p.2 (if p.1 ∈ s then s else s ++ [p.1])
  | none => dictInsert out p.2 [p.1]

/-- The tag branch of `strongly_connected_components`, folded over the tagged
nodes. -/
def tagGroups (tags : List (String × String)) : List (String × List String) :=
  tags.foldl tagAdd []

/-- Fold a list of `(name, members)` pairs into a registry by Python dict
assignment. -/
def regFold (d : List (String × List String))
    (prs : List (String × List String)) : List (String × List String) :=
  prs.foldl (fun d q => dictInsert d q.1 q.2) d

/-- Apply a list of `(name, members)` taggings to the graph in order. -/
def tagFold (gr : Graph) (prs : List (String × List String)) : Graph :=
  prs.foldl (fun h q => h.setTags q.2 q.1) gr

/-- The compute branch of `strongly_connected_components`: for each
discovered component (with its 0-based index), name it from the current
graph, record it in the registry under that name, and tag its members. -/
def sccLoop (n2w : Nat → String → String) (naming : String) :
    List (Nat × List String) → List (String × List String) → Graph →
    Except NamingError (List (String × List String) × Graph)
  | [], out, gr => .ok (out, gr)
  | (i, comp) :: rest, out, gr => do
    let name ← component_name n2w gr i comp naming
    sccLoop n2w naming rest (dictInsert out name comp) (gr.setTags comp name)

/-- `strongly_connected_components(graph, naming=naming)`: when any node
already carries a component tag, rebuild the registry from the tags and leave
the graph alone; otherwise run the SCC engine, name each component and tag
the graph.  Returns the registry together with the (possibly tagged)
graph. -/
def strongly_connected_components (n2w : Nat → String → String) (g : Graph)
    (naming : String) :
    Except NamingError (List (String × List String) × Graph) :=
  let tags := nodeComponentAttrs g
  if tags.isEmpty then sccLoop n2w naming g.sccList.enum [] g
  else .ok (tagGroups tags, g)

/-- The names the compute branch assigns, in discovery order, computed
against the untagged graph (tagging never touches labels, so these are the
names the loop produces). -/
def componentNames (n2w : Nat → String → String) (g : Graph) (naming : String) :
    Except NamingError (List String) :=
  g.sccList.enum.mapM (fun p => component_name n2w g p.1 p.2 naming)

/-- A stand-in instantiation for the external `num2words` collaborator, used
only to evaluate the model on concrete inputs. -/
def n2wTest (n : Nat) (mode : String) : String :=
  mode ++ toString n

/-- The spec's triangle-plus-isolate scenario: nodes `A, B, C, D`, edges
`A→B, B→C, C→A`. -/
def triGraph : Graph :=
  read_graph [("A", "a"), ("B", "b"), ("C", "c"), ("D", "d")]
    [("a", "b"), ("b", "c"), ("c", "a")] false

/-- `triGraph` after the compute path tagged it under `string` naming. -/
def triTagged : Graph :=
  ⟨[⟨"a", some "A", some "C0"⟩, ⟨"b", some "B", some "C0"⟩,
    ⟨"c", some "C", some "C0"⟩, ⟨"d", some "D", some "C1"⟩],
   [("a", "b"), ("b", "c"), ("c", "a")]⟩

/-- Two disjoint 2-cycles whose labels all start with `p`, so the `initials`
strategy names both components `pp` whatever member order is chosen. -/
def collGraph : Graph :=
  read_graph [("p1", "a"), ("p2", "b"), ("p3", "c"), ("p4", "d")]
    [("a", "b"), ("b", "a"), ("c", "d"), ("d", "c")] false

/-- `collGraph` after the compute path tagged it under `initials` naming. -/
def collTagged : Graph :=
  ⟨[⟨"a", some "p1", some "pp"⟩, ⟨"b", some "p2", some "pp"⟩,
    ⟨"c", some "p3", some "pp"⟩, ⟨"d", some "p4", some "pp"⟩],
   [("a", "b"), ("b", "a"), ("c", "d"), ("d", "c")]⟩

/-- A graph that already carries component tags on every node, as if reloaded
from a previous run. -/
def preTagged : Graph :=
  ⟨[⟨"a", some "A", some "T0"⟩, ⟨"b", some "B", some "T1"⟩], [("a", "b")]⟩

/-! ### Reachability: the bounded search decides `Graph.Reach` -/

theorem mem_succs {g : Graph} {u w : String} : w ∈ g.succs u ↔ (u, w) ∈ g.edges := by
  simp only [Graph.succs, List.mem_map, List.mem_filter, beq_iff_eq]
  constructor
  · rintro ⟨⟨a, b⟩, ⟨hmem, rfl⟩, rfl⟩
    exact hmem
  · intro h
    exact ⟨(u, w), ⟨h, rfl⟩, rfl⟩

theorem reachN_refl {g : Graph} : ∀ (k : Nat) (u : String), g.reachN k u u = true := by
  intro k u
  cases k <;> simp [Graph.reachN]

theorem reachN_sound {g : Graph} :
    ∀ (k : Nat) (u v : String), g.reachN k u v = true → g.Reach u v := by
  intro k
  induction k with
  | zero =>
    intro u v h
    simp only [Graph.reachN, beq_iff_eq] at h
    subst h
    exact Relation.ReflTransGen.refl
  | succ k ih =>
    intro u v h
    simp only [Graph.reachN, Bool.or_eq_true, beq_iff_eq, List.any_eq_true] at h
    rcases h with h | ⟨w, hw, hr⟩
    · subst h
      exact Relation.ReflTransGen.refl
    · exact Relation.ReflTransGen.head (mem_succs.mp hw) (ih w v hr)

theorem chain_mem_ids {g : Graph} (hWF : g.WF) :
    ∀ {l : List String} {u : String}, List.Chain g.Step u l → ∀ x ∈ l, x ∈ g.ids := by
  intro l
  induction l with
  | nil => intro u _ x hx; cases hx
  | cons b t ih =>
    intro u hc x hx
    rw [List.chain_cons] at hc
    rcases List.mem_cons.mp hx with rfl | hx'
    · exact (hWF.2 (u, x) hc.1).2
    · exact ih hc.2 x hx'

theorem exists_nodup_chain {α : Type} {r : α → α → Prop} :
    ∀ (l : List α) (a : α), List.Chain r a l →
      ∃ l', List.Chain r a l' ∧ (a :: l').Nodup ∧
        (a :: l').getLast? = (a :: l).getLast? ∧ ∀ x ∈ l', x ∈ l := by
  intro l
  induction l with
  | nil =>
    intro a _
    exact ⟨[], List.Chain.nil, List.nodup_singleton a, rfl, by simp⟩
  | cons b t ih =>
    intro a hc
    rw [List.chain_cons] at hc
    obtain ⟨t', ht'c, ht'nd, ht'last, ht'sub⟩ := ih b hc.2
    by_cases hab : a ∈ b :: t'
    · obtain ⟨m₁, m₂, hsplit⟩ := List.append_of_mem hab
      have hca : List.Chain r a (m₁ ++ a :: m₂) := by
        rw [← hsplit]; exact List.Chain.cons hc.1 ht'c
      refine ⟨m₂, (List.chain_split.mp hca).2, ?_, ?_, ?_⟩
      · have hsl : (a :: m₂).Sublist (b :: t') := by
          rw [hsplit]; exact List.sublist_append_right m₁ (a :: m₂)
        exact List.Nodup.sublist hsl ht'nd
      · rw [List.getLast?_cons_cons]
        calc (a :: m₂).getLast? = (m₁ ++ a :: m₂).getLast? :=
              (List.getLast?_append_cons m₁ a m₂).symm
          _ = (b :: t').getLast? := by rw [hsplit]
          _ = (b :: t).getLast? := ht'last
      · intro x hx
        have hx' : x ∈ b :: t' := by
          rw [hsplit]
          exact List.mem_append_right m₁ (List.mem_cons_of_mem a hx)
        rcases List.mem_cons.mp hx' with rfl | hx''
        · exact List.mem_cons_self x t
        · exact List.mem_cons_of_mem b (ht'sub x hx'')
    · refine ⟨b :: t', List.Chain.cons hc.1 ht'c, ?_, ?_, ?_⟩
      · exact List.nodup_cons.mpr ⟨hab, ht'nd⟩
      · rw [List.getLast?_cons_cons, List.getLast?_cons_cons]
        exact ht'last
      · intro x hx
        rcases List.mem_cons.mp hx with rfl | hx'
        · exact List.mem_cons_self x t
        · exact List.mem_cons_of_mem b (ht'sub x hx')

theorem nodup_length_le {l ns : List String} (hnd : l.Nodup)
    (hsub : ∀ x ∈ l, x ∈ ns) : l.length ≤ ns.length := by
  have h1 : l.toFinset.card = l.length := List.toFinset_card_of_nodup hnd
  have h2 : l.toFinset ⊆ ns.toFinset := by
    intro x hx
    rw [List.mem_toFinset] at hx ⊢
    exact hsub x hx
  calc l.length = l.toFinset.card := h1.symm
    _ ≤ ns.toFinset.card := Finset.card_le_card h2
    _ = ns.dedup.length := List.card_toFinset ns
    _ ≤ ns.length := List.Sublist.length_le (List.dedup_sublist ns)

theorem reachN_of_chain {g : Graph} :
    ∀ (l : List String) (k : Nat) (u v : String), List.Chain g.Step u l →
      l.length ≤ k → (u :: l).getLast? = some v → g.reachN k u v = true := by
  intro l
  induction l with
  | nil =>
    intro k u v _ _ hlast
    simp only [List.getLast?_singleton, Option.some.injEq] at hlast
    subst hlast
    exact reachN_refl k u
  | cons b t ih =>
    intro k u v hc hlen hlast
    cases k with
    | zero => simp at hlen
    | succ k' =>
      rw [List.chain_cons] at hc
      rw [List.getLast?_cons_cons] at hlast
      simp only [Graph.reachN, Bool.or_eq_true, beq_iff_eq, List.any_eq_true]
      refine Or.inr ⟨b, mem_succs.mpr hc.1, ?_⟩
      exact ih k' b v hc.2 (Nat.le_of_succ_le_succ hlen) hlast

theorem reach_complete {g : Graph} (hWF : g.WF) {u v : String} (hu : u ∈ g.ids)
    (h : g.Reach u v) : g.reachB u v = true := by
  obtain ⟨l, hc, hlast⟩ := List.exists_chain_of_relationReflTransGen h
  obtain ⟨l', hc', hnd, hlast', hsub⟩ := exists_nodup_chain l u hc
  have hmem : ∀ x ∈ u :: l', x ∈ g.ids := by
    intro x hx
    rcases List.mem_cons.mp hx with rfl | hx'
    · exact hu
    · exact chain_mem_ids hWF hc' x hx'
  have hlen : (u :: l').length ≤ g.ids.length := nodup_length_le hnd hmem
  have hlen' : l'.length ≤ g.ids.length := by
    simp only [List.length_cons] at hlen
    exact Nat.le_of_succ_le hlen
  have hl : (u :: l).getLast? = some v := by
    rw [List.getLast?_eq_getLast (u :: l) (List.cons_ne_nil u l)]
    exact congrArg some hlast
  exact reachN_of_chain l' g.ids.length u v hc' hlen' (hlast'.trans hl)

theorem reachB_iff {g : Graph} (hWF : g.WF) {u v : String} (hu : u ∈ g.ids) :
    g.reachB u v = true ↔ g.Reach u v :=
  ⟨reachN_sound g.ids.length u v, reach_complete hWF hu⟩

/-! ### The SCC decomposition is a partition grouped by mutual reachability -/

theorem bool_eq_of_iff {a b : Bool} (h : a = true ↔ b = true) : a = b := by
  cases a <;> cases b <;> simp_all

theorem mutualB_refl {g : Graph} (u : String) : g.mutualB u u = true := by
  simp [Graph.mutualB, Graph.reachB, reachN_refl]

theorem mutualB_symm {g : Graph} (u v : String) : g.mutualB u v = g.mutualB v u :=
  Bool.and_comm _ _

theorem mutualB_sound {g : Graph} {u v : String} (h : g.mutualB u v = true) :
    g.Reach u v ∧ g.Reach v u := by
  simp only [Graph.mutualB, Bool.and_eq_true] at h
  exact ⟨reachN_sound _ _ _ h.1, reachN_sound _ _ _ h.2⟩

theorem mutualB_iff {g : Graph} (hWF : g.WF) {u v : String} (hu : u ∈ g.ids)
    (hv : v ∈ g.ids) : g.mutualB u v = true ↔ g.Reach u v ∧ g.Reach v u := by
  simp only [Graph.mutualB, Bool.and_eq_true]
  rw [reachB_iff hWF hu, reachB_iff hWF hv]

theorem mutualB_trans {g : Graph} (hWF : g.WF) {u v w : String} (hu : u ∈ g.ids)
    (hw : w ∈ g.ids) (h1 : g.mutualB u v = true) (h2 : g.mutualB v w = true) :
    g.mutualB u w = true := by
  have a1 := mutualB_sound h1
  have a2 := mutualB_sound h2
  exact (mutualB_iff hWF hu hw).mpr ⟨a1.1.trans a2.1, a2.2.trans a1.2⟩

theorem find?_congr_on {α : Type} {p q : α → Bool} :
    ∀ {l : List α}, (∀ x ∈ l, p x = q x) → l.find? p = l.find? q := by
  intro l
  induction l with
  | nil => intro _; rfl
  | cons a t ih =>
    intro h
    rw [List.find?_cons, List.find?_cons, h a (List.mem_cons_self a t)]
    cases hq : q a
    · exact ih (fun x hx => h x (List.mem_cons_of_mem a hx))
    · rfl

theorem canon_spec {g : Graph} {u w : String} (h : g.canon u = some w) :
    w ∈ g.ids ∧ g.mutualB w u = true := by
  rw [Graph.canon] at h
  have h2 := List.find?_some h
  exact ⟨List.mem_of_find?_eq_some h, by simpa using h2⟩

theorem canon_isSome {g : Graph} {u : String} (hu : u ∈ g.ids) :
    ∃ w, g.canon u = some w := by
  cases hc : g.canon u with
  | some w => exact ⟨w, rfl⟩
  | none =>
    rw [Graph.canon, List.find?_eq_none] at hc
    exact absurd (mutualB_refl u) (by simpa using hc u hu)

theorem canon_congr {g : Graph} (hWF : g.WF) {u v : String} (hu : u ∈ g.ids)
    (hv : v ∈ g.ids) (huv : g.mutualB u v = true) : g.canon u = g.canon v := by
  apply find?_congr_on
  intro w hw
  apply bool_eq_of_iff
  constructor
  · intro h
    exact mutualB_trans hWF hw hv h huv
  · intro h
    have huv' : g.mutualB v u = true := by rw [← mutualB_symm]; exact huv
    exact mutualB_trans hWF hw hu h huv'

theorem canon_fix {g : Graph} (hWF : g.WF) {u w : String} (hu : u ∈ g.ids)
    (h : g.canon u = some w) : g.canon w = some w := by
  obtain ⟨hwid, hwmu⟩ := canon_spec h
  have heq : g.canon w = g.canon u := canon_congr hWF hwid hu hwmu
  rw [heq, h]

theorem mem_sccList_iff {g : Graph} {c : List String} :
    c ∈ g.sccList ↔
      ∃ s, s ∈ g.ids ∧ g.canon s = some s ∧
        c = g.ids.filter (fun v => g.mutualB s v) := by
  simp only [Graph.sccList, List.mem_map, List.mem_filter, beq_iff_eq]
  constructor
  · rintro ⟨s, ⟨hs, hcanon⟩, rfl⟩
    exact ⟨s, hs, hcanon, rfl⟩
  · rintro ⟨s, hs, hcanon, rfl⟩
    exact ⟨s, ⟨hs, hcanon⟩, rfl⟩

theorem sccList_cover {g : Graph} (hWF : g.WF) {u : String} (hu : u ∈ g.ids) :
    ∃ c ∈ g.sccList, u ∈ c := by
  obtain ⟨w, hw⟩ := canon_isSome hu
  obtain ⟨hwid, hwmu⟩ := canon_spec hw
  refine ⟨g.ids.filter (fun v => g.mutualB w v), ?_, ?_⟩
  · exact mem_sccList_iff.mpr ⟨w, hwid, canon_fix hWF hu hw, rfl⟩
  · rw [List.mem_filter]
    exact ⟨hu, hwmu⟩

theorem sccList_mem_ids {g : Graph} {c : List String} (hc : c ∈ g.sccList) :
    ∀ x ∈ c, x ∈ g.ids := by
  obtain ⟨s, -, -, rfl⟩ := mem_sccList_iff.mp hc
  intro x hx
  exact (List.mem_filter.mp hx).1

theorem sccList_same_iff {g : Graph} (hWF : g.WF) {u v : String} (hu : u ∈ g.ids)
    (hv : v ∈ g.ids) :
    (∃ c ∈ g.sccList, u ∈ c ∧ v ∈ c) ↔ g.mutualB u v = true := by
  constructor
  · rintro ⟨c, hc, huc, hvc⟩
    obtain ⟨s, hsid, -, rfl⟩ := mem_sccList_iff.mp hc
    have h1 := (List.mem_filter.mp huc).2
    have h2 := (List.mem_filter.mp hvc).2
    have h1' : g.mutualB u s = true := by rw [mutualB_symm]; exact h1
    exact mutualB_trans hWF hu hv h1' h2
  · intro huv
    obtain ⟨w, hw⟩ := canon_isSome hu
    obtain ⟨hwid, hwmu⟩ := canon_spec hw
    refine ⟨g.ids.filter (fun x => g.mutualB w x),
      mem_sccList_iff.mpr ⟨w, hwid, canon_fix hWF hu hw, rfl⟩, ?_, ?_⟩
    · rw [List.mem_filter]
      exact ⟨hu, hwmu⟩
    · rw [List.mem_filter]
      exact ⟨hv, mutualB_trans hWF hwid hv hwmu huv⟩

theorem sccList_pairwise_disjoint {g : Graph} (hWF : g.WF) :
    g.sccList.Pairwise (fun c d => ∀ x, ¬ (x ∈ c ∧ x ∈ d)) := by
  rw [Graph.sccList, List.pairwise_map]
  have hnd : (g.ids.filter (fun u => g.canon u == some u)).Nodup :=
    List.Nodup.filter _ hWF.1
  have hp : (g.ids.filter (fun u => g.canon u == some u)).Pairwise (· ≠ ·) := hnd
  refine List.Pairwise.imp_of_mem ?_ hp
  intro a b ha hb hne x hx
  obtain ⟨hxa, hxb⟩ := hx
  rw [List.mem_filter, beq_iff_eq] at ha hb
  rw [List.mem_filter] at hxa hxb
  have hxb' : g.mutualB x b = true := by rw [mutualB_symm]; exact hxb.2
  have hmab : g.mutualB a b = true := mutualB_trans hWF ha.1 hb.1 hxa.2 hxb'
  have hcan := canon_congr hWF ha.1 hb.1 hmab
  rw [ha.2, hb.2] at hcan
  exact hne (Option.some.inj hcan)

theorem sccList_disjoint_of_mem {g : Graph} (hWF : g.WF) {c d : List String}
    (hc : c ∈ g.sccList) (hd : d ∈ g.sccList) (hcd : c ≠ d) :
    ∀ x, x ∈ c → x ∉ d := by
  have hsym : Symmetric (fun c d : List String => ∀ x, ¬ (x ∈ c ∧ x ∈ d)) := by
    intro c d h x hx
    exact h x ⟨hx.2, hx.1⟩
  have := List.Pairwise.forall hsym (sccList_pairwise_disjoint hWF) hc hd hcd
  intro x hxc hxd
  exact this x ⟨hxc, hxd⟩

/-! ### Association-list dictionaries: Python dict assignment and lookup -/

theorem option_some_or {α : Type} (a : α) (o : Option α) : (some a).or o = some a := rfl

theorem option_map_or {α β : Type} (f : α → β) (o o' : Option α) :
    (o.or o').map f = (o.map f).or (o'.map f) := by
  cases o <;> rfl

theorem getLast?_cons_or {α : Type} (a : α) (l : List α) :
    (a :: l).getLast? = l.getLast?.or (some a) := by
  cases l with
  | nil => rfl
  | cons b t =>
    rw [List.getLast?_cons_cons]
    rw [List.getLast?_eq_getLast (b :: t) (List.cons_ne_nil b t)]
    rfl

theorem find?_insert_map_self {α : Type} {k : String} {v : α} :
    ∀ {d : List (String × α)}, d.any (fun p => p.1 == k) = true →
      (d.map (fun p => if p.1 == k then (k, v) else p)).find? (fun p => p.1 == k) =
        some (k, v) := by
  intro d
  induction d with
  | nil => intro h; simp at h
  | cons q t ih =>
    intro h
    by_cases hq : q.1 = k
    · subst hq
      simp only [List.map_cons, beq_self_eq_true, if_true, List.find?_cons]
    · have h' : t.any (fun p => p.1 == k) = true := by
        simpa [List.any_cons, hq] using h
      have hqf : (q.1 == k) = false := by simpa using hq
      simp only [List.map_cons, List.find?_cons]
      rw [if_neg (by simp [hqf]), hqf]
      exact ih h'

theorem find?_insert_map_ne {α : Type} {k k' : String} {v : α} (hne : k' ≠ k) :
    ∀ {d : List (String × α)},
      (d.map (fun p => if p.1 == k then (k, v) else p)).find? (fun p => p.1 == k') =
        d.find? (fun p => p.1 == k') := by
  intro d
  induction d with
  | nil => rfl
  | cons q t ih =>
    by_cases hq : q.1 = k
    · have hkk' : ((k, v).1 == k') = false := by
        simp only [beq_eq_false_iff_ne, ne_eq]
        exact fun h => hne h.symm
      have hqk' : (q.1 == k') = false := by
        rw [hq]
        simpa using fun h => hne h.symm
      simp only [List.map_cons, List.find?_cons]
      rw [if_pos (by simp [hq]), hkk', hqk']
      exact ih
    · have hqf : (q.1 == k) = false := by simpa using hq
      by_cases hq' : q.1 = k'
      · have hqt : (q.1 == k') = true := by simp [hq']
        simp only [List.map_cons, List.find?_cons]
        rw [if_neg (by simp [hqf]), hqt]
      · have hqt : (q.1 == k') = false := by simpa using hq'
        simp only [List.map_cons, List.find?_cons]
        rw [if_neg (by simp [hqf]), hqt]
        exact ih

theorem dictLookup_insert_self {α : Type} (d : List (String × α)) (k : String) (v : α) :
    dictLookup (dictInsert d k v) k = some v := by
  rw [dictInsert]
  cases hany : d.any (fun p => p.1 == k)
  · simp only [Bool.false_eq_true, if_false, dictLookup, List.find?_append]
    have h1 : d.find? (fun p => p.1 == k) = none :=
      List.find?_eq_none.mpr (List.any_eq_false.mp hany)
    rw [h1, Option.none_or, List.find?_cons_of_pos _ (by simp)]
    rfl
  · simp only [if_true, dictLookup]
    rw [find?_insert_map_self hany]
    rfl

theorem dictLookup_insert_ne {α : Type} (d : List (String × α)) {k k' : String}
    (v : α) (hne : k' ≠ k) :
    dictLookup (dictInsert d k v) k' = dictLookup d k' := by
  rw [dictInsert]
  cases hany : d.any (fun p => p.1 == k)
  · simp only [Bool.false_eq_true, if_false, dictLookup, List.find?_append]
    have h2 : [(k, v)].find? (fun p => p.1 == k') = none := by
      rw [List.find?_eq_none]
      intro x hx
      rw [List.mem_singleton] at hx
      subst hx
      simp only [beq_iff_eq]
      exact fun h => hne h.symm
    rw [h2, Option.or_none]
  · simp only [if_true, dictLookup]
    rw [find?_insert_map_ne hne]

theorem regFold_lookup {k : String} :
    ∀ (prs : List (String × List String)) (d : List (String × List String)),
      dictLookup (regFold d prs) k =
        ((prs.filter (fun q => q.1 == k)).getLast?.map (fun q => q.2)).or
          (dictLookup d k) := by
  intro prs
  induction prs with
  | nil =>
    intro d
    simp [regFold, Option.none_or]
  | cons q t ih =>
    intro d
    have hstep : regFold d (q :: t) = regFold (dictInsert d q.1 q.2) t := rfl
    rw [hstep, ih]
    by_cases hq : q.1 = k
    · subst hq
      rw [List.filter_cons_of_pos (by simp)]
      rw [getLast?_cons_or, option_map_or, Option.or_assoc]
      rw [dictLookup_insert_self]
      rfl
    · rw [List.filter_cons_of_neg (by simp [hq])]
      rw [dictLookup_insert_ne _ _ (fun h => hq h.symm)]

theorem regFold_eq_append :
    ∀ (prs : List (String × List String)) (d : List (String × List String)),
      (prs.map (fun q => q.1)).Nodup →
      (∀ q ∈ prs, d.any (fun p => p.1 == q.1) = false) →
      regFold d prs = d ++ prs := by
  intro prs
  induction prs with
  | nil =>
    intro d _ _
    simp [regFold]
  | cons q t ih =>
    intro d hnd hdis
    have hstep : regFold d (q :: t) = regFold (dictInsert d q.1 q.2) t := rfl
    have hins : dictInsert d q.1 q.2 = d ++ [q] := by
      rw [dictInsert, if_neg (by simp [hdis q (List.mem_cons_self q t)])]
    rw [hstep, hins]
    rw [List.map_cons, List.nodup_cons] at hnd
    have hrest : ∀ r ∈ t, (d ++ [q]).any (fun p => p.1 == r.1) = false := by
      intro r hr
      rw [List.any_append, Bool.or_eq_false_iff]
      constructor
      · exact hdis r (List.mem_cons_of_mem q hr)
      · simp only [List.any_cons, List.any_nil, Bool.or_false, beq_eq_false_iff_ne, ne_eq]
        intro hqr
        exact hnd.1 (hqr ▸ List.mem_map_of_mem (fun q => q.1) hr)
    rw [ih (d ++ [q]) hnd.2 hrest, List.append_assoc]
    rfl

theorem dictLookup_of_nodup_keys {α : Type} :
    ∀ {d : List (String × α)}, (d.map (fun p => p.1)).Nodup →
      ∀ {p : String × α}, p ∈ d → dictLookup d p.1 = some p.2 := by
  intro d
  induction d with
  | nil => intro _ p hp; cases hp
  | cons q t ih =>
    intro hnd p hp
    rw [List.map_cons, List.nodup_cons] at hnd
    rcases List.mem_cons.mp hp with rfl | hpt
    · rw [dictLookup, List.find?_cons]
      simp
    · have hne : q.1 ≠ p.1 := by
        intro h
        exact hnd.1 (h ▸ List.mem_map_of_mem (fun r => r.1) hpt)
      rw [dictLookup, List.find?_cons]
      have : (q.1 == p.1) = false := by simpa using hne
      rw [this]
      exact ih hnd.2 hpt

theorem mapM_ok_length {α β : Type} {f : α → Except NamingError β} :
    ∀ {l : List α} {bs : List β}, l.mapM f = .ok bs → bs.length = l.length := by
  intro l
  induction l with
  | nil =>
    intro bs h
    rw [List.mapM_nil] at h
    cases h
    rfl
  | cons a t ih =>
    intro bs h
    rw [List.mapM_cons] at h
    cases hfa : f a with
    | error e =>
      rw [hfa] at h
      simp [Bind.bind, Except.bind] at h
    | ok b =>
      rw [hfa] at h
      cases hft : t.mapM f with
      | error e =>
        rw [hft] at h
        simp [Bind.bind, Except.bind, Pure.pure, Except.pure] at h
      | ok bs' =>
        rw [hft] at h
        simp only [Bind.bind, Except.bind, Pure.pure, Except.pure, Except.ok.injEq] at h
        subst h
        simp [ih hft]

/-! ### Tag writes never touch labels; the compute loop characterized -/

theorem findNode_setTags {g : Graph} {m : List String} {nm s : String} :
    (g.setTags m nm).findNode s =
      (g.findNode s).map
        (fun n => if n.id ∈ m then { n with component := some nm } else n) := by
  simp only [Graph.setTags, Graph.findNode]
  rw [List.find?_map]
  congr 1
  apply find?_congr_on
  intro n _
  by_cases h : n.id ∈ m <;> simp [Function.comp, h]

theorem label?_setTags {g : Graph} {m : List String} {nm s : String} :
    (g.setTags m nm).label? s = g.label? s := by
  rw [Graph.label?, Graph.label?, findNode_setTags]
  cases g.findNode s with
  | none => rfl
  | some n => by_cases h : n.id ∈ m <;> simp [h]

theorem findNode_id {g : Graph} {s : String} {n : GNode} (h : g.findNode s = some n) :
    n.id = s := by
  rw [Graph.findNode] at h
  simpa using List.find?_some h

theorem mem_nodes_of_findNode {g : Graph} {s : String} {n : GNode}
    (h : g.findNode s = some n) : n ∈ g.nodes := by
  rw [Graph.findNode] at h
  exact List.mem_of_find?_eq_some h

theorem tag?_setTags {g : Graph} {m : List String} {nm s : String} :
    (g.setTags m nm).tag? s =
      if s ∈ m ∧ (g.findNode s).isSome then some nm else g.tag? s := by
  rw [Graph.tag?, Graph.tag?, findNode_setTags]
  cases hf : g.findNode s with
  | none => simp
  | some n =>
    have hid : n.id = s := findNode_id hf
    by_cases h : s ∈ m
    · simp [hid, h]
    · simp [hid, h]

theorem initialsOf_congr {g₁ g₂ : Graph} (h : ∀ s, g₁.label? s = g₂.label? s) :
    ∀ nodes, initialsOf g₁ nodes = initialsOf g₂ nodes := by
  intro nodes
  induction nodes with
  | nil => rfl
  | cons s t ih => simp only [initialsOf, h s, ih]

theorem component_name_congr {n2w : Nat → String → String} {g₁ g₂ : Graph}
    {num : Nat} {nodes : List String} {method : String}
    (h : ∀ s, g₁.label? s = g₂.label? s) :
    component_name n2w g₁ num nodes method =
      component_name n2w g₂ num nodes method := by
  rw [component_name, component_name, initialsOf_congr h nodes]

theorem sccLoop_ok {n2w : Nat → String → String} {naming : String} {g : Graph} :
    ∀ (pairs : List (Nat × List String)) (out : List (String × List String))
      (gr : Graph) (names : List String),
      (∀ s, gr.label? s = g.label? s) →
      pairs.mapM (fun p => component_name n2w g p.1 p.2 naming) = .ok names →
      sccLoop n2w naming pairs out gr =
        .ok (regFold out (names.zip (pairs.map (fun p => p.2))),
             tagFold gr (names.zip (pairs.map (fun p => p.2)))) := by
  intro pairs
  induction pairs with
  | nil =>
    intro out gr names _ hm
    rw [List.mapM_nil] at hm
    cases hm
    rfl
  | cons p rest ih =>
    intro out gr names hlab hm
    obtain ⟨i, comp⟩ := p
    rw [List.mapM_cons] at hm
    cases hcn : component_name n2w g i comp naming with
    | error e =>
      rw [hcn] at hm
      simp [Bind.bind, Except.bind] at hm
    | ok nm =>
      rw [hcn] at hm
      cases hrest : rest.mapM (fun p => component_name n2w g p.1 p.2 naming) with
      | error e =>
        rw [hrest] at hm
        simp [Bind.bind, Except.bind, Pure.pure, Except.pure] at hm
      | ok ns =>
        rw [hrest] at hm
        simp only [Bind.bind, Except.bind, Pure.pure, Except.pure,
          Except.ok.injEq] at hm
        subst hm
        have hlab' : ∀ s, (gr.setTags comp nm).label? s = g.label? s :=
          fun s => (label?_setTags).trans (hlab s)
        have hstep : sccLoop n2w naming ((i, comp) :: rest) out gr =
            Except.bind (component_name n2w gr i comp naming)
              (fun name => sccLoop n2w naming rest (dictInsert out name comp)
                (gr.setTags comp name)) := rfl
        rw [hstep, component_name_congr hlab, hcn]
        have hbind : Except.bind (Except.ok nm)
            (fun name => sccLoop n2w naming rest (dictInsert out name comp)
              (gr.setTags comp name)) =
            sccLoop n2w naming rest (dictInsert out nm comp)
              (gr.setTags comp nm) := rfl
        rw [hbind, ih (dictInsert out nm comp) (gr.setTags comp nm) ns hlab' hrest]
        rfl

theorem scc_compute_ok {n2w : Nat → String → String} {g : Graph} {naming : String}
    {names : List String} (hnt : nodeComponentAttrs g = [])
    (hnames : componentNames n2w g naming = .ok names) :
    strongly_connected_components n2w g naming =
      .ok (regFold [] (names.zip g.sccList), tagFold g (names.zip g.sccList)) := by
  rw [componentNames] at hnames
  have hsnd : g.sccList.enum.map (fun p => p.2) = g.sccList :=
    List.enum_map_snd g.sccList
  have h := sccLoop_ok g.sccList.enum [] g names (fun s => rfl) hnames
  rw [hsnd] at h
  rw [strongly_connected_components]
  simp only [hnt, List.isEmpty_nil, if_true]
  exact h

theorem isSome_findNode_setTags {g : Graph} {m : List String} {nm u : String} :
    ((g.setTags m nm).findNode u).isSome = (g.findNode u).isSome := by
  rw [findNode_setTags]
  cases g.findNode u <;> rfl

theorem tagFold_tag {u : String} :
    ∀ (prs : List (String × List String)) (gr : Graph),
      (gr.findNode u).isSome = true →
      (tagFold gr prs).tag? u =
        ((prs.filter (fun q => u ∈ q.2)).getLast?.map (fun q => q.1)).or
          (gr.tag? u) := by
  intro prs
  induction prs with
  | nil =>
    intro gr _
    simp [tagFold, Option.none_or]
  | cons q t ih =>
    intro gr hu
    have hstep : tagFold gr (q :: t) = tagFold (gr.setTags q.2 q.1) t := rfl
    have hu' : ((gr.setTags q.2 q.1).findNode u).isSome = true := by
      rw [isSome_findNode_setTags]
      exact hu
    rw [hstep, ih (gr.setTags q.2 q.1) hu', tag?_setTags]
    by_cases h : u ∈ q.2
    · rw [List.filter_cons_of_pos (by simp [h])]
      rw [getLast?_cons_or, option_map_or, Option.or_assoc]
      rw [if_pos ⟨h, hu⟩]
      rfl
    · rw [List.filter_cons_of_neg (by simp [h])]
      rw [if_neg (by simp [h])]

/-! ### The tag branch: grouping nodes by their existing component tags -/

theorem tagAdd_mem {out : List (String × List String)} {p : String × String}
    {x c : String} :
    (∃ s, dictLookup (tagAdd out p) c = some s ∧ x ∈ s) ↔
      ((x = p.1 ∧ c = p.2) ∨ ∃ s, dictLookup out c = some s ∧ x ∈ s) := by
  cases hl : dictLookup out p.2 with
  | none =>
    have hadd : tagAdd out p = dictInsert out p.2 [p.1] := by
      rw [tagAdd, hl]
    rw [hadd]
    by_cases hc : c = p.2
    · subst hc
      constructor
      · rintro ⟨s, hs, hx⟩
        rw [dictLookup_insert_self] at hs
        cases hs
        rw [List.mem_singleton] at hx
        exact Or.inl ⟨hx, rfl⟩
      · rintro (⟨rfl, -⟩ | ⟨s, hs, hx⟩)
        · exact ⟨[p.1], dictLookup_insert_self _ _ _, List.mem_singleton_self p.1⟩
        · rw [hl] at hs
          cases hs
    · constructor
      · rintro ⟨s, hs, hx⟩
        rw [dictLookup_insert_ne _ _ hc] at hs
        exact Or.inr ⟨s, hs, hx⟩
      · rintro (⟨-, hcc⟩ | ⟨s, hs, hx⟩)
        · exact absurd hcc hc
        · refine ⟨s, ?_, hx⟩
          rw [dictLookup_insert_ne _ _ hc]
          exact hs
  | some s0 =>
    have hadd : tagAdd out p =
        dictInsert out p.2 (if p.1 ∈ s0 then s0 else s0 ++ [p.1]) := by
      rw [tagAdd, hl]
    rw [hadd]
    by_cases hc : c = p.2
    · subst hc
      constructor
      · rintro ⟨s, hs, hx⟩
        rw [dictLookup_insert_self] at hs
        cases hs
        by_cases hmem : p.1 ∈ s0
        · rw [if_pos hmem] at hx
          exact Or.inr ⟨s0, hl, hx⟩
        · rw [if_neg hmem, List.mem_append, List.mem_singleton] at hx
          rcases hx with hx | rfl
          · exact Or.inr ⟨s0, hl, hx⟩
          · exact Or.inl ⟨rfl, rfl⟩
      · rintro (⟨rfl, -⟩ | ⟨s, hs, hx⟩)
        · refine ⟨_, dictLookup_insert_self _ _ _, ?_⟩
          by_cases hmem : p.1 ∈ s0
          · rw [if_pos hmem]
            exact hmem
          · rw [if_neg hmem, List.mem_append, List.mem_singleton]
            exact Or.inr rfl
        · rw [hl] at hs
          cases hs
          refine ⟨_, dictLookup_insert_self _ _ _, ?_⟩
          by_cases hmem : p.1 ∈ s0
          · rw [if_pos hmem]
            exact hx
          · rw [if_neg hmem, List.mem_append]
            exact Or.inl hx
    · constructor
      · rintro ⟨s, hs, hx⟩
        rw [dictLookup_insert_ne _ _ hc] at hs
        exact Or.inr ⟨s, hs, hx⟩
      · rintro (⟨-, hcc⟩ | ⟨s, hs, hx⟩)
        · exact absurd hcc hc
        · refine ⟨s, ?_, hx⟩
          rw [dictLookup_insert_ne _ _ hc]
          exact hs

theorem tagGroups_fold_mem {x c : String} :
    ∀ (tags : List (String × String)) (out : List (String × List String)),
      (∃ s, dictLookup (tags.foldl tagAdd out) c = some s ∧ x ∈ s) ↔
        ((x, c) ∈ tags ∨ ∃ s, dictLookup out c = some s ∧ x ∈ s) := by
  intro tags
  induction tags with
  | nil =>
    intro out
    simp
  | cons p t ih =>
    intro out
    rw [List.foldl_cons, ih (tagAdd out p), tagAdd_mem]
    constructor
    · rintro (h | (⟨rfl, rfl⟩ | h))
      · exact Or.inl (List.mem_cons_of_mem p h)
      · exact Or.inl (List.mem_cons_self _ t)
      · exact Or.inr h
    · rintro (h | h)
      · rcases List.mem_cons.mp h with rfl | ht
        · exact Or.inr (Or.inl ⟨rfl, rfl⟩)
        · exact Or.inl ht
      · exact Or.inr (Or.inr h)

theorem tagGroups_mem {tags : List (String × String)} {x c : String} :
    (∃ s, dictLookup (tagGroups tags) c = some s ∧ x ∈ s) ↔ (x, c) ∈ tags := by
  rw [tagGroups, tagGroups_fold_mem]
  simp [dictLookup]

theorem mem_nodeComponentAttrs {g : Graph} {x c : String} :
    (x, c) ∈ nodeComponentAttrs g ↔
      ∃ n ∈ g.nodes, n.id = x ∧ n.component = some c := by
  rw [nodeComponentAttrs, List.mem_filterMap]
  constructor
  · rintro ⟨n, hn, hmap⟩
    cases hcomp : n.component with
    | none => rw [hcomp] at hmap; cases hmap
    | some c' =>
      rw [hcomp] at hmap
      cases hmap
      exact ⟨n, hn, rfl, hcomp⟩
  · rintro ⟨n, hn, rfl, hcomp⟩
    exact ⟨n, hn, by rw [hcomp]; rfl⟩

theorem attrs_iff_tag {g : Graph} (hnd : g.ids.Nodup) {x c : String} :
    (x, c) ∈ nodeComponentAttrs g ↔ g.tag? x = some c := by
  rw [mem_nodeComponentAttrs]
  constructor
  · rintro ⟨n, hn, rfl, hcomp⟩
    have hfind : g.findNode n.id = some n := by
      rw [Graph.findNode]
      have : ∀ {l : List GNode}, (l.map (fun m => m.id)).Nodup → n ∈ l →
          l.find? (fun m => m.id == n.id) = some n := by
        intro l
        induction l with
        | nil => intro _ h; cases h
        | cons b t ihl =>
          intro hnd' hmem
          rw [List.map_cons, List.nodup_cons] at hnd'
          rcases List.mem_cons.mp hmem with rfl | ht
          · rw [List.find?_cons]
            simp
          · have hbn : (b.id == n.id) = false := by
              simp only [beq_eq_false_iff_ne, ne_eq]
              intro he
              exact hnd'.1 (he ▸ List.mem_map_of_mem (fun m => m.id) ht)
            rw [List.find?_cons, hbn]
            exact ihl hnd'.2 ht
      exact this hnd hn
    rw [Graph.tag?, hfind]
    simpa using hcomp
  · intro htag
    rw [Graph.tag?] at htag
    cases hfind : g.findNode x with
    | none => rw [hfind] at htag; cases htag
    | some n =>
      rw [hfind] at htag
      refine ⟨n, mem_nodes_of_findNode hfind, findNode_id hfind, by simpa using htag⟩

theorem nodeComponentAttrs_ne_nil {g : Graph}
    (hall : ∀ n ∈ g.nodes, n.component ≠ none) (hne : g.nodes ≠ []) :
    (nodeComponentAttrs g).isEmpty = false := by
  cases hns : g.nodes with
  | nil => exact absurd hns hne
  | cons n t =>
    have hn : n.component ≠ none := hall n (by rw [hns]; exact List.mem_cons_self n t)
    cases hcomp : n.component with
    | none => exact absurd hcomp hn
    | some c =>
      rw [nodeComponentAttrs, hns, List.filterMap_cons, hcomp]
      rfl

/-! ### The naming strategies: errors and the `initials` computation -/

theorem string_ne_empty_iff {l : String} : l ≠ "" ↔ l.toList ≠ [] := by
  constructor
  · intro h hc
    exact h (String.ext hc)
  · intro h hc
    subst hc
    exact h rfl

theorem initialsOf_cons_none {g : Graph} {s : String} {t : List String}
    (hl : g.label? s = none) :
    initialsOf g (s :: t) = .error (.missingLabel s) := by
  simp only [initialsOf, hl]

theorem initialsOf_cons_empty {g : Graph} {s : String} {t : List String}
    {l : String} (hl : g.label? s = some l) (hlc : l.toList = []) :
    initialsOf g (s :: t) = .error (.emptyLabel s) := by
  simp only [initialsOf, hl, hlc]

theorem initialsOf_cons_char {g : Graph} {s : String} {t : List String}
    {l : String} {c : Char} {cs : List Char} (hl : g.label? s = some l)
    (hlc : l.toList = c :: cs) :
    initialsOf g (s :: t) = (initialsOf g t).map (fun ds => c :: ds) := by
  simp only [initialsOf, hl, hlc]

theorem initialsOf_error_shape {g : Graph} :
    ∀ {nodes : List String} {e : NamingError}, initialsOf g nodes = .error e →
      ∃ s ∈ nodes, (e = .missingLabel s ∧ g.label? s = none) ∨
        (e = .emptyLabel s ∧ g.label? s = some "") := by
  intro nodes
  induction nodes with
  | nil => intro e h; cases h
  | cons s t ih =>
    intro e h
    cases hl : g.label? s with
    | none =>
      rw [initialsOf_cons_none hl] at h
      cases h
      exact ⟨s, List.mem_cons_self s t, Or.inl ⟨rfl, hl⟩⟩
    | some l =>
      cases hlc : l.toList with
      | nil =>
        rw [initialsOf_cons_empty hl hlc] at h
        cases h
        have hempty : l = "" := String.ext hlc
        exact ⟨s, List.mem_cons_self s t, Or.inr ⟨rfl, hempty ▸ hl⟩⟩
      | cons c cs =>
        rw [initialsOf_cons_char hl hlc] at h
        cases hr : initialsOf g t with
        | error e' =>
          rw [hr] at h
          cases h
          obtain ⟨s', hs', hcase⟩ := ih hr
          exact ⟨s', List.mem_cons_of_mem s hs', hcase⟩
        | ok cs' =>
          rw [hr] at h
          cases h

theorem initialsOf_ok_iff {g : Graph} :
    ∀ {nodes : List String}, (∃ cs, initialsOf g nodes = .ok cs) ↔
      ∀ s ∈ nodes, ∃ l, g.label? s = some l ∧ l ≠ "" := by
  intro nodes
  induction nodes with
  | nil =>
    constructor
    · intro _ s hs
      cases hs
    · intro _
      exact ⟨[], rfl⟩
  | cons s t ih =>
    constructor
    · rintro ⟨cs, hcs⟩ s' hs'
      cases hl : g.label? s with
      | none =>
        rw [initialsOf_cons_none hl] at hcs
        cases hcs
      | some l =>
        cases hlc : l.toList with
        | nil =>
          rw [initialsOf_cons_empty hl hlc] at hcs
          cases hcs
        | cons c cs' =>
          rw [initialsOf_cons_char hl hlc] at hcs
          cases hr : initialsOf g t with
          | error e =>
            rw [hr] at hcs
            cases hcs
          | ok cs'' =>
            rcases List.mem_cons.mp hs' with rfl | hs't
            · refine ⟨l, hl, ?_⟩
              rw [string_ne_empty_iff, hlc]
              exact List.cons_ne_nil c cs'
            · exact ih.mp ⟨cs'', hr⟩ s' hs't
    · intro hall
      obtain ⟨l, hl, hlne⟩ := hall s (List.mem_cons_self s t)
      obtain ⟨cs, hcs⟩ := ih.mpr (fun s' hs' => hall s' (List.mem_cons_of_mem s hs'))
      rw [string_ne_empty_iff] at hlne
      cases hlc : l.toList with
      | nil => exact absurd hlc hlne
      | cons c cs' =>
        refine ⟨c :: cs, ?_⟩
        rw [initialsOf_cons_char hl hlc, hcs]
        rfl

theorem initialsOf_labels {g : Graph} :
    ∀ {nodes ls : List String}, nodes.map g.label? = ls.map some →
      (∀ l ∈ ls, l ≠ "") →
      initialsOf g nodes = .ok (ls.map (fun l => l.toList.headI)) := by
  intro nodes
  induction nodes with
  | nil =>
    intro ls hmap _
    cases ls with
    | nil => rfl
    | cons l t => cases hmap
  | cons s t ih =>
    intro ls hmap hne
    cases ls with
    | nil => cases hmap
    | cons l ls' =>
      rw [List.map_cons, List.map_cons] at hmap
      have hl : g.label? s = some l := (List.cons.injEq _ _ _ _ ▸ hmap).1
      have hrest : t.map g.label? = ls'.map some := (List.cons.injEq _ _ _ _ ▸ hmap).2
      have hlne : l ≠ "" := hne l (List.mem_cons_self l ls')
      rw [string_ne_empty_iff] at hlne
      cases hlc : l.toList with
      | nil => exact absurd hlc hlne
      | cons c cs =>
        rw [initialsOf_cons_char hl hlc,
          ih hrest (fun l' hl' => hne l' (List.mem_cons_of_mem l hl'))]
        rw [List.map_cons]
        have hhead : l.toList.headI = c := by rw [hlc]; rfl
        rw [hhead]
        rfl

theorem namingMethod_values {method v : String} (h : namingMethod method = some v) :
    v = "string" ∨ v = "initials" ∨ v = "cardinal" ∨ v = "ordinal" := by
  rw [namingMethod, dictLookup] at h
  cases hf : NAMING_METHODS.find? (fun p => p.1 == method) with
  | none =>
    rw [hf] at h
    cases h
  | some p =>
    rw [hf] at h
    cases h
    have hmem := List.mem_of_find?_eq_some hf
    fin_cases hmem <;> simp

theorem namingMethod_none_iff {method : String} :
    namingMethod method = none ↔ method ∉ NAMING_METHODS.map (fun p => p.1) := by
  rw [namingMethod, dictLookup, Option.map_eq_none', List.find?_eq_none]
  constructor
  · intro h hmem
    rw [List.mem_map] at hmem
    obtain ⟨p, hp, hid⟩ := hmem
    exact h p hp (by simp [hid])
  · intro h p hp hbeq
    rw [beq_iff_eq] at hbeq
    exact h (hbeq ▸ List.mem_map_of_mem (fun p => p.1) hp)

theorem component_name_not_unknown {n2w : Nat → String → String} {g : Graph}
    {num : Nat} {nodes : List String} {method m : String}
    (h : component_name n2w g num nodes method = .error (.unknownMethod m)) :
    namingMethod method = none ∧ m = method := by
  cases hv : namingMethod method with
  | none =>
    simp only [component_name, hv] at h
    cases h
    exact ⟨rfl, rfl⟩
  | some v =>
    rcases namingMethod_values hv with rfl | rfl | rfl | rfl
    · have heq : component_name n2w g num nodes method = .ok ("C" ++ toString num) := by
        simp only [component_name, hv]
      rw [heq] at h
      cases h
    · have heq : component_name n2w g num nodes method =
          (initialsOf g nodes).map String.mk := by
        simp only [component_name, hv]
      rw [heq] at h
      cases hr : initialsOf g nodes with
      | error e =>
        rw [hr] at h
        cases h
        obtain ⟨s, -, hcase⟩ := initialsOf_error_shape hr
        rcases hcase with ⟨he, -⟩ | ⟨he, -⟩ <;> cases he
      | ok cs =>
        rw [hr] at h
        cases h
    · have heq : component_name n2w g num nodes method = .ok (n2w (num + 1) "cardinal") := by
        simp only [component_name, hv]
      rw [heq] at h
      cases h
    · have heq : component_name n2w g num nodes method = .ok (n2w (num + 1) "ordinal") := by
        simp only [component_name, hv]
      rw [heq] at h
      cases h

/-! ### Graph builders: ids, well-formedness and node contents -/

theorem hasNode_iff_mem_ids {g : Graph} {s : String} :
    g.hasNode s = true ↔ s ∈ g.ids := by
  rw [Graph.hasNode, Graph.ids, List.any_eq_true]
  constructor
  · rintro ⟨n, hn, hbeq⟩
    rw [beq_iff_eq] at hbeq
    exact hbeq ▸ List.mem_map_of_mem (fun n => n.id) hn
  · intro h
    rw [List.mem_map] at h
    obtain ⟨n, hn, hid⟩ := h
    exact ⟨n, hn, by simp [hid]⟩

theorem edges_add_node {g : Graph} {ident label : String} :
    (g.add_node ident label).edges = g.edges := by
  rw [Graph.add_node]
  by_cases h : g.hasNode ident <;> simp [h]

theorem ids_add_node {g : Graph} {ident label : String} :
    (g.add_node ident label).ids =
      if g.hasNode ident then g.ids else g.ids ++ [ident] := by
  by_cases h : g.hasNode ident
  · rw [if_pos h, Graph.add_node, if_pos h]
    simp only [Graph.ids, List.map_map]
    apply List.map_congr_left
    intro n _
    by_cases hn : n.id = ident <;> simp [Function.comp, hn]
  · rw [if_neg h, Graph.add_node, if_neg h]
    simp [Graph.ids]

theorem WF_empty : Graph.empty.WF := by
  constructor
  · simp [Graph.empty, Graph.ids]
  · intro e he
    cases he

theorem WF_add_node {g : Graph} (hWF : g.WF) {ident label : String} :
    (g.add_node ident label).WF := by
  constructor
  · rw [ids_add_node]
    by_cases h : g.hasNode ident
    · rw [if_pos h]
      exact hWF.1
    · rw [if_neg h, List.nodup_append]
      refine ⟨hWF.1, List.nodup_singleton ident, ?_⟩
      intro x hx hx2
      rw [List.mem_singleton] at hx2
      subst hx2
      exact h (hasNode_iff_mem_ids.mpr hx)
  · intro e he
    rw [edges_add_node] at he
    have hmem := hWF.2 e he
    rw [ids_add_node]
    by_cases h : g.hasNode ident
    · rw [if_pos h]
      exact hmem
    · rw [if_neg h]
      exact ⟨List.mem_append_left _ hmem.1, List.mem_append_left _ hmem.2⟩

theorem edges_addEndpoint {g : Graph} {s : String} :
    (g.addEndpoint s).edges = g.edges := by
  rw [Graph.addEndpoint]
  by_cases h : g.hasNode s <;> simp [h]

theorem ids_addEndpoint {g : Graph} {s : String} :
    (g.addEndpoint s).ids = if g.hasNode s then g.ids else g.ids ++ [s] := by
  by_cases h : g.hasNode s
  · rw [if_pos h, Graph.addEndpoint, if_pos h]
  · rw [if_neg h, Graph.addEndpoint, if_neg h]
    simp [Graph.ids]

theorem WF_addEndpoint {g : Graph} (hWF : g.WF) {s : String} :
    (g.addEndpoint s).WF := by
  constructor
  · rw [ids_addEndpoint]
    by_cases h : g.hasNode s
    · rw [if_pos h]
      exact hWF.1
    · rw [if_neg h, List.nodup_append]
      refine ⟨hWF.1, List.nodup_singleton s, ?_⟩
      intro x hx hx2
      rw [List.mem_singleton] at hx2
      subst hx2
      exact h (hasNode_iff_mem_ids.mpr hx)
  · intro e he
    rw [edges_addEndpoint] at he
    have hmem := hWF.2 e he
    rw [ids_addEndpoint]
    by_cases h : g.hasNode s
    · rw [if_pos h]
      exact hmem
    · rw [if_neg h]
      exact ⟨List.mem_append_left _ hmem.1, List.mem_append_left _ hmem.2⟩

theorem mem_ids_addEndpoint_self {g : Graph} {s : String} :
    s ∈ (g.addEndpoint s).ids := by
  rw [ids_addEndpoint]
  by_cases h : g.hasNode s
  · rw [if_pos h]
    exact hasNode_iff_mem_ids.mp h
  · rw [if_neg h]
    exact List.mem_append_right _ (List.mem_singleton_self s)

theorem mem_ids_addEndpoint_of {g : Graph} {s x : String} (hx : x ∈ g.ids) :
    x ∈ (g.addEndpoint s).ids := by
  rw [ids_addEndpoint]
  by_cases h : g.hasNode s
  · rw [if_pos h]
    exact hx
  · rw [if_neg h]
    exact List.mem_append_left _ hx

theorem nodes_add_edge {g : Graph} {t h : String} :
    (g.add_edge t h).nodes = ((g.addEndpoint t).addEndpoint h).nodes := by
  rw [Graph.add_edge]
  by_cases hm : (t, h) ∈ ((g.addEndpoint t).addEndpoint h).edges <;> simp [hm]

theorem ids_add_edge {g : Graph} {t h : String} :
    (g.add_edge t h).ids = ((g.addEndpoint t).addEndpoint h).ids := by
  rw [Graph.ids, Graph.ids, nodes_add_edge]

theorem mem_edges_add_edge {g : Graph} {t h : String} {e : String × String} :
    e ∈ (g.add_edge t h).edges ↔ (e ∈ g.edges ∨ e = (t, h)) := by
  rw [Graph.add_edge]
  have he2 : ((g.addEndpoint t).addEndpoint h).edges = g.edges := by
    rw [edges_addEndpoint, edges_addEndpoint]
  by_cases hm : (t, h) ∈ ((g.addEndpoint t).addEndpoint h).edges
  · rw [if_pos hm, he2]
    rw [he2] at hm
    constructor
    · exact Or.inl
    · rintro (hx | rfl)
      · exact hx
      · exact hm
  · rw [if_neg hm]
    simp only [he2, List.mem_append, List.mem_singleton]

theorem WF_add_edge {g : Graph} (hWF : g.WF) {t h : String} :
    (g.add_edge t h).WF := by
  have hWF2 : ((g.addEndpoint t).addEndpoint h).WF :=
    WF_addEndpoint (WF_addEndpoint hWF)
  constructor
  · rw [ids_add_edge]
    exact hWF2.1
  · intro e he
    rw [mem_edges_add_edge] at he
    rw [ids_add_edge]
    rcases he with he | rfl
    · have hmem := hWF.2 e he
      exact ⟨mem_ids_addEndpoint_of (mem_ids_addEndpoint_of hmem.1),
        mem_ids_addEndpoint_of (mem_ids_addEndpoint_of hmem.2)⟩
    · exact ⟨mem_ids_addEndpoint_of mem_ids_addEndpoint_self,
        mem_ids_addEndpoint_self⟩

theorem foldl_WF {α : Type} {step : Graph → α → Graph}
    (hstep : ∀ g a, g.WF → (step g a).WF) :
    ∀ (l : List α) (g : Graph), g.WF → (l.foldl step g).WF := by
  intro l
  induction l with
  | nil =>
    intro g hg
    exact hg
  | cons a t ih =>
    intro g hg
    exact ih (step g a) (hstep g a hg)

theorem WF_read_graph {nodes links : List (String × String)} {number : Bool} :
    (read_graph nodes links number).WF := by
  rw [read_graph]
  exact foldl_WF (fun g p hg => WF_add_edge hg) links _
    (foldl_WF (fun g p hg => WF_add_node hg) nodes _ WF_empty)

theorem map_no_match_id {ident : String} {f : GNode → GNode} {l : List GNode}
    (h : ∀ n ∈ l, n.id ≠ ident) :
    l.map (fun n => if n.id == ident then f n else n) = l := by
  calc l.map (fun n => if n.id == ident then f n else n)
      = l.map id := List.map_congr_left (fun n hn => by simp [h n hn])
    _ = l := List.map_id l

theorem graph_eq_of {a b : Graph} (hn : a.nodes = b.nodes)
    (he : a.edges = b.edges) : a = b := by
  cases a
  cases b
  cases hn
  cases he
  rfl

theorem nodes_add_node_pos {g : Graph} {ident label : String}
    (h : g.hasNode ident = true) :
    (g.add_node ident label).nodes =
      g.nodes.map (fun n => if n.id == ident then { n with label := some label } else n) := by
  rw [Graph.add_node, if_pos h]

theorem nodes_add_node_neg {g : Graph} {ident label : String}
    (h : g.hasNode ident = false) :
    (g.add_node ident label).nodes = g.nodes ++ [⟨ident, some label, none⟩] := by
  rw [Graph.add_node, if_neg (by simp [h])]

theorem hasNode_add_node_self {g : Graph} {ident label : String} :
    (g.add_node ident label).hasNode ident = true := by
  rw [hasNode_iff_mem_ids, ids_add_node]
  by_cases h : g.hasNode ident
  · rw [if_pos h]
    exact hasNode_iff_mem_ids.mp h
  · rw [if_neg h]
    exact List.mem_append_right _ (List.mem_singleton_self ident)

theorem add_node_twice {g : Graph} {ident l1 l2 : String} :
    (g.add_node ident l1).add_node ident l2 = g.add_node ident l2 := by
  apply graph_eq_of
  · rw [nodes_add_node_pos hasNode_add_node_self]
    by_cases h : g.hasNode ident
    · rw [nodes_add_node_pos h, nodes_add_node_pos h, List.map_map]
      apply List.map_congr_left
      intro n _
      by_cases hn : n.id = ident <;> simp [Function.comp, hn]
    · have h' : g.hasNode ident = false := by simpa using h
      have hnone : ∀ n ∈ g.nodes, n.id ≠ ident := by
        intro n hn he
        rw [Graph.hasNode, List.any_eq_false] at h'
        exact h' n hn (by simp [he])
      rw [nodes_add_node_neg h', nodes_add_node_neg h', List.map_append,
        map_no_match_id hnone]
      simp
  · rw [edges_add_node, edges_add_node, edges_add_node]

theorem label?_add_node_self {g : Graph} {ident label : String} :
    (g.add_node ident label).label? ident = some label := by
  rw [Graph.label?, Graph.findNode]
  by_cases h : g.hasNode ident
  · rw [nodes_add_node_pos h, List.find?_map]
    have hfind : (g.nodes.find?
        ((fun n => n.id == ident) ∘
          (fun n => if n.id == ident then { n with label := some label } else n))) =
        g.nodes.find? (fun n => n.id == ident) := by
      apply find?_congr_on
      intro n _
      by_cases hn : n.id = ident <;> simp [Function.comp, hn]
    rw [hfind]
    rw [Graph.hasNode] at h
    obtain ⟨n, hn, hbeq⟩ := List.any_eq_true.mp h
    cases hf : g.nodes.find? (fun n => n.id == ident) with
    | none =>
      rw [List.find?_eq_none] at hf
      exact absurd hbeq (hf n hn)
    | some m =>
      have hm := List.find?_some hf
      rw [beq_iff_eq] at hm
      simp [hm]
  · have h' : g.hasNode ident = false := by simpa using h
    rw [nodes_add_node_neg h', List.find?_append]
    have hnone : g.nodes.find? (fun n => n.id == ident) = none := by
      rw [List.find?_eq_none]
      rw [Graph.hasNode, List.any_eq_false] at h'
      exact h'
    rw [hnone, Option.none_or]
    simp [List.find?_cons]

theorem mem_add_node_other {g : Graph} {ident label : String} {n : GNode}
    (hne : n.id ≠ ident) :
    n ∈ (g.add_node ident label).nodes ↔ n ∈ g.nodes := by
  rw [Graph.add_node]
  by_cases h : g.hasNode ident
  · rw [if_pos h]
    simp only [List.mem_map]
    constructor
    · rintro ⟨m, hm, hfm⟩
      by_cases hmid : m.id = ident
      · exfalso
        apply hne
        rw [← hfm]
        simp [hmid]
      · rw [if_neg (by simpa using hmid)] at hfm
        exact hfm ▸ hm
    · intro hn
      refine ⟨n, hn, ?_⟩
      rw [if_neg (by simpa using hne)]
  · rw [if_neg h]
    simp only [List.mem_append, List.mem_singleton]
    constructor
    · rintro (hn | rfl)
      · exact hn
      · exact absurd rfl hne
    · exact fun hn => Or.inl hn

theorem nodup_ids_add_node {g : Graph} (hnd : g.ids.Nodup)
    {ident label : String} : (g.add_node ident label).ids.Nodup := by
  rw [ids_add_node]
  by_cases h : g.hasNode ident
  · rw [if_pos h]
    exact hnd
  · rw [if_neg h, List.nodup_append]
    refine ⟨hnd, List.nodup_singleton ident, ?_⟩
    intro x hx hx2
    rw [List.mem_singleton] at hx2
    subst hx2
    exact h (hasNode_iff_mem_ids.mpr hx)

theorem count_eq_countP_ids {g : Graph} {ident : String} :
    List.count ident g.ids = g.nodes.countP (fun n => n.id == ident) := by
  rw [Graph.ids, List.count, List.countP_map]
  rfl

theorem count_add_node {g : Graph} (hnd : g.ids.Nodup) {ident label : String} :
    ((g.add_node ident label).nodes.filter (fun n => n.id == ident)).length = 1 := by
  have hnd' : (g.add_node ident label).ids.Nodup := nodup_ids_add_node hnd
  have hmem : ident ∈ (g.add_node ident label).ids := by
    rw [ids_add_node]
    by_cases h : g.hasNode ident
    · rw [if_pos h]
      exact hasNode_iff_mem_ids.mp h
    · rw [if_neg h]
      exact List.mem_append_right _ (List.mem_singleton_self ident)
  have hcount : List.count ident (g.add_node ident label).ids = 1 :=
    List.count_eq_one_of_mem hnd' hmem
  rw [count_eq_countP_ids, List.countP_eq_length_filter] at hcount
  exact hcount

theorem findNode_addEndpoint_self_new {g : Graph} {s : String}
    (h : g.hasNode s = false) :
    (g.addEndpoint s).findNode s = some ⟨s, none, none⟩ := by
  rw [Graph.addEndpoint, if_neg (by simp [h])]
  rw [Graph.findNode]
  have hnone : g.nodes.find? (fun n => n.id == s) = none := by
    rw [List.find?_eq_none]
    rw [Graph.hasNode, List.any_eq_false] at h
    exact h
  rw [List.find?_append, hnone, Option.none_or]
  simp [List.find?_cons]

theorem findNode_addEndpoint_other {g : Graph} {s x : String} (hne : x ≠ s) :
    (g.addEndpoint s).findNode x = g.findNode x := by
  rw [Graph.addEndpoint]
  by_cases hh : g.hasNode s
  · rw [if_pos hh]
  · rw [if_neg hh]
    rw [Graph.findNode, Graph.findNode, List.find?_append]
    have hsing : ([⟨s, none, none⟩] : List GNode).find? (fun n => n.id == x) = none := by
      rw [List.find?_eq_none]
      intro n hn
      rw [List.mem_singleton] at hn
      subst hn
      simp only [beq_eq_false_iff_ne, ne_eq, Bool.not_eq_true]
      simpa using fun he => hne he.symm
    rw [hsing, Option.or_none]

theorem hasNode_addEndpoint_iff {g : Graph} {s x : String} :
    (g.addEndpoint s).hasNode x = true ↔ (g.hasNode x = true ∨ x = s) := by
  rw [hasNode_iff_mem_ids, ids_addEndpoint]
  by_cases h : g.hasNode s
  · rw [if_pos h]
    constructor
    · intro hx
      exact Or.inl (hasNode_iff_mem_ids.mpr hx)
    · rintro (hx | rfl)
      · exact hasNode_iff_mem_ids.mp hx
      · exact hasNode_iff_mem_ids.mp h
  · rw [if_neg h, List.mem_append, List.mem_singleton, hasNode_iff_mem_ids]

theorem hasNode_add_edge_iff {g : Graph} {t h x : String} :
    (g.add_edge t h).hasNode x = true ↔
      (g.hasNode x = true ∨ x = t ∨ x = h) := by
  rw [hasNode_iff_mem_ids, ids_add_edge, ← hasNode_iff_mem_ids,
    hasNode_addEndpoint_iff, hasNode_addEndpoint_iff]
  tauto

theorem findNode_add_edge_tail {g : Graph} {t h : String}
    (ht : g.hasNode t = false) :
    (g.add_edge t h).findNode t = some ⟨t, none, none⟩ := by
  have hnodes : (g.add_edge t h).nodes = ((g.addEndpoint t).addEndpoint h).nodes :=
    nodes_add_edge
  rw [Graph.findNode, hnodes, ← Graph.findNode]
  by_cases hth : h = t
  · subst hth
    have h1 : (g.addEndpoint h).hasNode h = true :=
      hasNode_iff_mem_ids.mpr mem_ids_addEndpoint_self
    rw [show (g.addEndpoint h).addEndpoint h = g.addEndpoint h from by
      rw [Graph.addEndpoint, if_pos h1]]
    exact findNode_addEndpoint_self_new ht
  · rw [findNode_addEndpoint_other (fun he => hth he.symm)]
    exact findNode_addEndpoint_self_new ht

theorem findNode_add_edge_head {g : Graph} {t h : String}
    (hh : g.hasNode h = false) :
    (g.add_edge t h).findNode h = some ⟨h, none, none⟩ := by
  have hnodes : (g.add_edge t h).nodes = ((g.addEndpoint t).addEndpoint h).nodes :=
    nodes_add_edge
  rw [Graph.findNode, hnodes, ← Graph.findNode]
  by_cases hth : h = t
  · subst hth
    by_cases hg1 : (g.addEndpoint h).hasNode h = true
    · rw [show (g.addEndpoint h).addEndpoint h = g.addEndpoint h from by
        rw [Graph.addEndpoint, if_pos hg1]]
      exact findNode_addEndpoint_self_new hh
    · have h1 : (g.addEndpoint h).hasNode h = true :=
        hasNode_iff_mem_ids.mpr mem_ids_addEndpoint_self
      exact absurd h1 hg1
  · have hg1 : (g.addEndpoint t).hasNode h = false := by
      rw [Bool.eq_false_iff]
      intro hc
      rcases hasNode_addEndpoint_iff.mp hc with hc' | hc'
      · rw [hh] at hc'
        cases hc'
      · exact hth hc'
    exact findNode_addEndpoint_self_new hg1

theorem isSome_findNode_iff {g : Graph} {u : String} :
    (g.findNode u).isSome = true ↔ u ∈ g.ids := by
  rw [Graph.findNode, List.find?_isSome, Graph.ids]
  constructor
  · rintro ⟨n, hn, hbeq⟩
    rw [beq_iff_eq] at hbeq
    exact hbeq ▸ List.mem_map_of_mem (fun n => n.id) hn
  · intro h
    rw [List.mem_map] at h
    obtain ⟨n, hn, hid⟩ := h
    exact ⟨n, hn, by simp [hid]⟩

theorem zip_pair_mem {g : Graph} {names : List String}
    (hlen : names.length = g.sccList.length) {x : String}
    (hc : ∃ c ∈ g.sccList, x ∈ c) :
    ∃ p ∈ names.zip g.sccList, x ∈ p.2 := by
  obtain ⟨c, hcmem, hx⟩ := hc
  rw [List.mem_iff_getElem] at hcmem
  obtain ⟨i, hi, hci⟩ := hcmem
  have hztot : i < (names.zip g.sccList).length := by
    rw [List.length_zip, hlen]
    exact lt_min hi hi
  refine ⟨(names.zip g.sccList)[i], List.getElem_mem hztot, ?_⟩
  rw [List.getElem_zip]
  rw [← hci] at hx
  exact hx

theorem names_length {n2w : Nat → String → String} {g : Graph} {naming : String}
    {names : List String} (hnames : componentNames n2w g naming = .ok names) :
    names.length = g.sccList.length := by
  rw [componentNames] at hnames
  rw [mapM_ok_length hnames, List.enum_length]

/-! ### The claims -/

/-- C7: under the `string` strategy `component_name` returns `"C"` followed by
the decimal rendering of the 0-based component index, for every graph, every
member list and every external word collaborator; naming is a pure function,
so repeated runs with the same discovery order produce identical
name-to-index mappings. -/
theorem C7_string_naming (n2w : Nat → String → String) (g : Graph)
    (num : Nat) (nodes : List String) :
    component_name n2w g num nodes "string" = .ok ("C" ++ toString num) := rfl

/-- C4: `component_name` fails with the unknown-method error exactly for
strategy identifiers outside the recognized table `NAMING_METHODS`, and for a
recognized identifier it never raises that error (its only failures are the
label failures of `initials`). -/
theorem C4_unknown_naming_method (n2w : Nat → String → String) (g : Graph)
    (num : Nat) (nodes : List String) (method : String) :
    (component_name n2w g num nodes method = .error (.unknownMethod method) ↔
      method ∉ NAMING_METHODS.map (fun p => p.1)) ∧
    (∀ m, component_name n2w g num nodes method = .error (.unknownMethod m) →
      method ∉ NAMING_METHODS.map (fun p => p.1)) := by
  constructor
  · constructor
    · intro h
      exact namingMethod_none_iff.mp (component_name_not_unknown h).1
    · intro h
      have hv : namingMethod method = none := namingMethod_none_iff.mpr h
      simp only [component_name, hv]
  · intro m h
    exact namingMethod_none_iff.mp (component_name_not_unknown h).1

/-- C5: under the `initials` strategy the component name is the concatenation
of the first character of each member node's label, in the caller-given
member order, and it is a function of the ordered member labels alone. -/
theorem C5_initials_concatenation (n2w : Nat → String → String) (g : Graph)
    (num : Nat) (nodes ls : List String)
    (hmap : nodes.map g.label? = ls.map some)
    (hne : ∀ l ∈ ls, l ≠ "") :
    component_name n2w g num nodes "initials" =
      .ok (String.mk (ls.map (fun l => l.toList.headI))) := by
  have heq : component_name n2w g num nodes "initials" =
      (initialsOf g nodes).map String.mk := rfl
  rw [heq, initialsOf_labels hmap hne]
  rfl

/-- C5 witness: on a two-node graph labelled `Ant`, `Bee`, the `initials`
name of the component `[a, b]` is `AB`. -/
theorem C5_initials_concatenation_witness :
    component_name n2wTest (read_graph [("Ant", "a"), ("Bee", "b")] [] false) 0
      ["a", "b"] "initials" =
      .ok (String.mk ((["Ant", "Bee"] : List String).map (fun l => l.toList.headI))) :=
  C5_initials_concatenation n2wTest (read_graph [("Ant", "a"), ("Bee", "b")] [] false)
    0 ["a", "b"] ["Ant", "Bee"] (by decide) (by decide)

/-- C9: the `initials` strategy is partial at the interface: it succeeds
exactly when every member carries a non-empty label attribute, and an error
is a missing-label failure (the `['label']` lookup raising, as on a node
auto-created by an edge) or an empty-label failure (`label[0]` raising) at
some member. -/
theorem C9_initials_partiality (n2w : Nat → String → String) (g : Graph)
    (num : Nat) (nodes : List String) :
    ((component_name n2w g num nodes "initials").isOk = true ↔
      ∀ s ∈ nodes, ∃ l, g.label? s = some l ∧ l ≠ "") ∧
    (∀ e, component_name n2w g num nodes "initials" = .error e →
      ∃ s ∈ nodes, (e = .missingLabel s ∧ g.label? s = none) ∨
        (e = .emptyLabel s ∧ g.label? s = some "")) := by
  have heq : component_name n2w g num nodes "initials" =
      (initialsOf g nodes).map String.mk := rfl
  constructor
  · rw [heq, ← initialsOf_ok_iff]
    cases hr : initialsOf g nodes with
    | error e =>
      constructor
      · intro h
        cases h
      · rintro ⟨cs, hcs⟩
        cases hcs
    | ok cs =>
      constructor
      · intro _
        exact ⟨cs, rfl⟩
      · intro _
        rfl
  · intro e h
    rw [heq] at h
    cases hr : initialsOf g nodes with
    | error e' =>
      rw [hr] at h
      cases h
      exact initialsOf_error_shape hr
    | ok cs =>
      rw [hr] at h
      cases h

/-- C8: inserting a node whose id already exists is not an error and
overwrites the label (last write wins): after the two insertions the graph is
the same as after the second alone, holds exactly one node with that id,
that node's label is the second label, and edges and all other nodes are
unchanged. -/
theorem C8_add_node_overwrites (g : Graph) (ident l1 l2 : String)
    (hnd : g.ids.Nodup) :
    (g.add_node ident l1).add_node ident l2 = g.add_node ident l2 ∧
    (((g.add_node ident l1).add_node ident l2).nodes.filter
        (fun n => n.id == ident)).length = 1 ∧
    ((g.add_node ident l1).add_node ident l2).label? ident = some l2 ∧
    ((g.add_node ident l1).add_node ident l2).edges = g.edges ∧
    (∀ n : GNode, n.id ≠ ident →
      (n ∈ ((g.add_node ident l1).add_node ident l2).nodes ↔ n ∈ g.nodes)) := by
  refine ⟨add_node_twice, ?_, ?_, ?_, ?_⟩
  · rw [add_node_twice]
    exact count_add_node hnd
  · rw [add_node_twice]
    exact label?_add_node_self
  · rw [add_node_twice, edges_add_node]
  · intro n hne
    rw [add_node_twice]
    exact mem_add_node_other hne

/-- C8 witness: overwriting the label of node `a` on a concrete one-node
graph. -/
theorem C8_add_node_overwrites_witness :
    ((read_graph [("A", "a")] [] false).add_node "a" "X").add_node "a" "Y" =
        (read_graph [("A", "a")] [] false).add_node "a" "Y" ∧
    ((((read_graph [("A", "a")] [] false).add_node "a" "X").add_node "a" "Y").nodes.filter
        (fun n => n.id == "a")).length = 1 ∧
    (((read_graph [("A", "a")] [] false).add_node "a" "X").add_node "a" "Y").label? "a" =
        some "Y" ∧
    (((read_graph [("A", "a")] [] false).add_node "a" "X").add_node "a" "Y").edges =
        (read_graph [("A", "a")] [] false).edges ∧
    (∀ n : GNode, n.id ≠ "a" →
      (n ∈ (((read_graph [("A", "a")] [] false).add_node "a" "X").add_node "a" "Y").nodes ↔
        n ∈ (read_graph [("A", "a")] [] false).nodes)) :=
  C8_add_node_overwrites (read_graph [("A", "a")] [] false) "a" "X" "Y" (by decide)

/-- C6 counterexample: inserting the edge `b→c` when node `c` does not exist
creates `c`, but with no label attribute at all — its label lookup yields
`none`, not the empty string the claim asserts. -/
theorem C6_auto_creation_counterexample :
    ((read_graph [("A", "a"), ("B", "b")] [] false).add_edge "b" "c").hasNode "c" = true ∧
    ((read_graph [("A", "a"), ("B", "b")] [] false).add_edge "b" "c").label? "c" = none ∧
    ((read_graph [("A", "a"), ("B", "b")] [] false).add_edge "b" "c").label? "c" ≠
      some "" :=
  ⟨by decide, by decide, by decide⟩

/-- C6 (amended): `add_edge` never fails and auto-creates a missing endpoint
as a node with empty attributes — no label attribute (rather than an
empty-string label) and no component tag — and every node of the resulting
well-formed graph, the auto-created one included, appears in some component
of the SCC decomposition. -/
theorem C6_add_edge_auto_creation (g : Graph) (t h : String) (hWF : g.WF) :
    (∀ x, (g.add_edge t h).hasNode x = true ↔
      (g.hasNode x = true ∨ x = t ∨ x = h)) ∧
    (g.hasNode t = false → (g.add_edge t h).findNode t = some ⟨t, none, none⟩) ∧
    (g.hasNode h = false → (g.add_edge t h).findNode h = some ⟨h, none, none⟩) ∧
    (∀ x, (g.add_edge t h).hasNode x = true →
      ∃ c ∈ (g.add_edge t h).sccList, x ∈ c) := by
  refine ⟨fun x => hasNode_add_edge_iff, fun ht => findNode_add_edge_tail ht,
    fun hh => findNode_add_edge_head hh, ?_⟩
  intro x hx
  exact sccList_cover (WF_add_edge hWF) (hasNode_iff_mem_ids.mp hx)

/-- C6 witness: the scenario of the spec — nodes `a`, `b` and the edge
`b→c` — instantiated for the auto-created endpoint `c`. -/
theorem C6_add_edge_auto_creation_witness :
    (∀ x, ((read_graph [("A", "a"), ("B", "b")] [] false).add_edge "b" "c").hasNode x = true ↔
      ((read_graph [("A", "a"), ("B", "b")] [] false).hasNode x = true ∨ x = "b" ∨ x = "c")) ∧
    ((read_graph [("A", "a"), ("B", "b")] [] false).hasNode "b" = false →
      ((read_graph [("A", "a"), ("B", "b")] [] false).add_edge "b" "c").findNode "b" =
        some ⟨"b", none, none⟩) ∧
    ((read_graph [("A", "a"), ("B", "b")] [] false).hasNode "c" = false →
      ((read_graph [("A", "a"), ("B", "b")] [] false).add_edge "b" "c").findNode "c" =
        some ⟨"c", none, none⟩) ∧
    (∀ x, ((read_graph [("A", "a"), ("B", "b")] [] false).add_edge "b" "c").hasNode x = true →
      ∃ c ∈ ((read_graph [("A", "a"), ("B", "b")] [] false).add_edge "b" "c").sccList,
        x ∈ c) :=
  C6_add_edge_auto_creation (read_graph [("A", "a"), ("B", "b")] [] false) "b" "c"
    (by decide)

/-- C3: when every node of a non-empty graph already carries a component tag,
`strongly_connected_components` rebuilds the registry purely by grouping node
ids by tag value — the same result for every naming strategy and external
word collaborator, so the SCC engine and the naming assigner never run — and
returns the graph itself, all tags and every other part unchanged. -/
theorem C3_existing_tags_reused (g : Graph) (hnd : g.ids.Nodup)
    (hall : ∀ n ∈ g.nodes, n.component ≠ none) (hne : g.nodes ≠ []) :
    ∀ (n2w : Nat → String → String) (naming : String),
      strongly_connected_components n2w g naming =
        .ok (tagGroups (nodeComponentAttrs g), g) ∧
      (∀ x c,
        (∃ s, dictLookup (tagGroups (nodeComponentAttrs g)) c = some s ∧ x ∈ s) ↔
          g.tag? x = some c) := by
  intro n2w naming
  constructor
  · rw [strongly_connected_components]
    simp [nodeComponentAttrs_ne_nil hall hne]
  · intro x c
    rw [tagGroups_mem]
    exact attrs_iff_tag hnd

/-- C3 witness: a pre-tagged two-node graph, fed an unrecognized naming
method: the tag branch never consults the naming assigner. -/
theorem C3_existing_tags_reused_witness :
    strongly_connected_components n2wTest preTagged "bogus" =
        .ok (tagGroups (nodeComponentAttrs preTagged), preTagged) ∧
    (∀ x c,
      (∃ s, dictLookup (tagGroups (nodeComponentAttrs preTagged)) c = some s ∧ x ∈ s) ↔
        preTagged.tag? x = some c) :=
  C3_existing_tags_reused preTagged (by decide) (by decide) (by decide) n2wTest "bogus"

/-- C10: the compute path keys the registry by component name with plain dict
assignment: looking up a name yields the member set of the last-discovered
component bearing it (an earlier same-named component's set is silently
dropped), every node's component tag is written regardless, and when the
assigned names are pairwise distinct the registry is exactly the name/member
list in discovery order — one entry per component. -/
theorem C10_registry_keyed_by_name (n2w : Nat → String → String) (g : Graph)
    (naming : String) (names : List String) (reg : List (String × List String))
    (g' : Graph) (hWF : g.WF) (hnt : nodeComponentAttrs g = [])
    (hnames : componentNames n2w g naming = .ok names)
    (hok : strongly_connected_components n2w g naming = .ok (reg, g')) :
    (∀ nm, dictLookup reg nm =
      ((names.zip g.sccList).filter (fun q => q.1 == nm)).getLast?.map
        (fun q => q.2)) ∧
    (∀ u ∈ g.ids, ∃ p ∈ names.zip g.sccList, u ∈ p.2 ∧ g'.tag? u = some p.1) ∧
    (names.Nodup → reg = names.zip g.sccList) := by
  have hcomp := scc_compute_ok hnt hnames
  rw [hok] at hcomp
  have hpair := Except.ok.inj hcomp
  have hreg : reg = regFold [] (names.zip g.sccList) := congrArg Prod.fst hpair
  have hg' : g' = tagFold g (names.zip g.sccList) := congrArg Prod.snd hpair
  refine ⟨?_, ?_, ?_⟩
  · intro nm
    rw [hreg, regFold_lookup]
    rw [show dictLookup ([] : List (String × List String)) nm = none from rfl,
      Option.or_none]
  · intro u hu
    have hcover := sccList_cover hWF hu
    obtain ⟨p, hp, hup⟩ := zip_pair_mem (names_length hnames) hcover
    have hfil : p ∈ (names.zip g.sccList).filter (fun q => u ∈ q.2) := by
      rw [List.mem_filter]
      exact ⟨hp, by simpa using hup⟩
    have hne : (names.zip g.sccList).filter (fun q => u ∈ q.2) ≠ [] :=
      List.ne_nil_of_mem hfil
    have hlast := List.getLast?_eq_getLast _ hne
    have hqmem := List.getLast_mem hne
    rw [List.mem_filter] at hqmem
    refine ⟨_, hqmem.1, by simpa using hqmem.2, ?_⟩
    rw [hg', tagFold_tag (names.zip g.sccList) g (isSome_findNode_iff.mpr hu)]
    rw [hlast]
    rfl
  · intro hnodup
    rw [hreg]
    have hkeys : ((names.zip g.sccList).map (fun q => q.1)).Nodup := by
      have hmf := List.map_fst_zip names g.sccList (le_of_eq (names_length hnames))
      rw [show (names.zip g.sccList).map (fun q => q.1) =
        (names.zip g.sccList).map Prod.fst from rfl, hmf]
      exact hnodup
    rw [regFold_eq_append _ [] hkeys (fun q _ => rfl)]
    rfl

/-- C10 witness: on the two 2-cycles whose components are both named `pp` by
`initials`, the registry holds only the later component's member set while
all four nodes are tagged. -/
theorem C10_registry_keyed_by_name_witness :
    (∀ nm, dictLookup ([("pp", ["c", "d"])] : List (String × List String)) nm =
      (((["pp", "pp"] : List String).zip collGraph.sccList).filter
        (fun q => q.1 == nm)).getLast?.map (fun q => q.2)) ∧
    (∀ u ∈ collGraph.ids, ∃ p ∈ (["pp", "pp"] : List String).zip collGraph.sccList,
      u ∈ p.2 ∧ collTagged.tag? u = some p.1) ∧
    ((["pp", "pp"] : List String).Nodup →
      ([("pp", ["c", "d"])] : List (String × List String)) =
        (["pp", "pp"] : List String).zip collGraph.sccList) :=
  C10_registry_keyed_by_name n2wTest collGraph "initials" ["pp", "pp"]
    [("pp", ["c", "d"])] collTagged (by decide) rfl rfl rfl

/-- C1 (amended): on the compute path, whenever the naming succeeds with
pairwise-distinct component names — as under the `string` strategy — the
registry is a partition of the node-id set: its member sets cover every node
and are pairwise disjoint.  (As the claim stands, over the raw registry for
an arbitrary strategy, it is refuted by the name-collision counterexample:
a dict overwrite drops a component from the registry.) -/
theorem C1_registry_partition (n2w : Nat → String → String) (g : Graph)
    (naming : String) (names : List String) (reg : List (String × List String))
    (g' : Graph) (hWF : g.WF) (hnt : nodeComponentAttrs g = [])
    (hnames : componentNames n2w g naming = .ok names) (hnd : names.Nodup)
    (hok : strongly_connected_components n2w g naming = .ok (reg, g')) :
    (∀ x, (∃ p ∈ reg, x ∈ p.2) ↔ x ∈ g.ids) ∧
    (∀ p ∈ reg, ∀ q ∈ reg, p ≠ q → ∀ x, x ∈ p.2 → x ∉ q.2) := by
  have hcomp := scc_compute_ok hnt hnames
  rw [hok] at hcomp
  have hpair := Except.ok.inj hcomp
  have hreg0 : reg = regFold [] (names.zip g.sccList) := congrArg Prod.fst hpair
  have hkeys : ((names.zip g.sccList).map (fun q => q.1)).Nodup := by
    have hmf := List.map_fst_zip names g.sccList (le_of_eq (names_length hnames))
    rw [show (names.zip g.sccList).map (fun q => q.1) =
      (names.zip g.sccList).map Prod.fst from rfl, hmf]
    exact hnd
  have hreg : reg = names.zip g.sccList := by
    rw [hreg0, regFold_eq_append _ [] hkeys (fun q _ => rfl)]
    rfl
  subst hreg
  constructor
  · intro x
    constructor
    · rintro ⟨p, hp, hxp⟩
      exact sccList_mem_ids (List.of_mem_zip hp).2 x hxp
    · intro hx
      exact zip_pair_mem (names_length hnames) (sccList_cover hWF hx)
  · rintro p hp q hq hpq x hxp hxq
    rw [List.mem_iff_getElem] at hp hq
    obtain ⟨i, hi, hpi⟩ := hp
    obtain ⟨j, hj, hqj⟩ := hq
    have hij : i ≠ j := by
      intro hcontra
      subst hcontra
      rw [hpi] at hqj
      exact hpq hqj
    have hziplen : (names.zip g.sccList).length = g.sccList.length := by
      rw [List.length_zip, names_length hnames, Nat.min_self]
    have hi' : i < g.sccList.length := hziplen ▸ hi
    have hj' : j < g.sccList.length := hziplen ▸ hj
    have hpi2 : p.2 = g.sccList[i] := by
      rw [← hpi, List.getElem_zip]
    have hqj2 : q.2 = g.sccList[j] := by
      rw [← hqj, List.getElem_zip]
    rw [hpi2] at hxp
    rw [hqj2] at hxq
    have hdis := sccList_pairwise_disjoint hWF
    rw [List.pairwise_iff_get] at hdis
    rcases Nat.lt_or_gt_of_ne hij with hlt | hgt
    · exact hdis ⟨i, hi'⟩ ⟨j, hj'⟩ hlt x
        ⟨by simpa using hxp, by simpa using hxq⟩
    · exact hdis ⟨j, hj'⟩ ⟨i, hi'⟩ hgt x
        ⟨by simpa using hxq, by simpa using hxp⟩

/-- C1 counterexample: on two disjoint 2-cycles whose four labels all start
with `p`, the `initials` strategy names both components `pp`; the second
assignment overwrites the first registry entry, so node `a` — present in the
graph, which carries no pre-existing tags — belongs to no member set of the
returned registry: the union of the member sets is not the node set. -/
theorem C1_registry_partition_counterexample :
    nodeComponentAttrs collGraph = [] ∧
    "a" ∈ collGraph.ids ∧
    strongly_connected_components n2wTest collGraph "initials" =
      .ok ([("pp", ["c", "d"])], collTagged) ∧
    (∀ p ∈ ([("pp", ["c", "d"])] : List (String × List String)), "a" ∉ p.2) :=
  ⟨rfl, by decide, rfl, by decide⟩

/-- C1 witness: the spec's triangle-plus-isolate scenario under `string`
naming: the registry `{C0 ↦ {a, b, c}, C1 ↦ {d}}` partitions the node set. -/
theorem C1_registry_partition_witness :
    (∀ x, (∃ p ∈ ([("C0", ["a", "b", "c"]), ("C1", ["d"])] :
        List (String × List String)), x ∈ p.2) ↔ x ∈ triGraph.ids) ∧
    (∀ p ∈ ([("C0", ["a", "b", "c"]), ("C1", ["d"])] :
        List (String × List String)),
      ∀ q ∈ ([("C0", ["a", "b", "c"]), ("C1", ["d"])] :
        List (String × List String)),
      p ≠ q → ∀ x, x ∈ p.2 → x ∉ q.2) :=
  C1_registry_partition n2wTest triGraph "string" ["C0", "C1"]
    [("C0", ["a", "b", "c"]), ("C1", ["d"])] triTagged
    (by decide) rfl rfl (by decide) rfl

/-- C2 (amended): on the compute path, whenever the naming succeeds with
pairwise-distinct component names — as under the `string` strategy — two
nodes share a registry member set exactly when both are nodes of the graph
and each reaches the other by a directed path; in particular a node whose
only mutual-reachability partner is itself forms a singleton member set, so a
self-loop merges nothing.  (As the claim stands, for an arbitrary strategy,
the name-collision counterexample refutes it: a dropped component's mutually
reachable nodes appear in no member set.) -/
theorem C2_mutual_reachability (n2w : Nat → String → String) (g : Graph)
    (naming : String) (names : List String) (reg : List (String × List String))
    (g' : Graph) (hWF : g.WF) (hnt : nodeComponentAttrs g = [])
    (hnames : componentNames n2w g naming = .ok names) (hnd : names.Nodup)
    (hok : strongly_connected_components n2w g naming = .ok (reg, g')) :
    (∀ u v, (∃ p ∈ reg, u ∈ p.2 ∧ v ∈ p.2) ↔
      (u ∈ g.ids ∧ v ∈ g.ids ∧ g.Reach u v ∧ g.Reach v u)) ∧
    (∀ u ∈ g.ids, (∀ v ∈ g.ids, v ≠ u → ¬ (g.Reach u v ∧ g.Reach v u)) →
      ∃ p ∈ reg, u ∈ p.2 ∧ ∀ v ∈ p.2, v = u) := by
  have hcomp := scc_compute_ok hnt hnames
  rw [hok] at hcomp
  have hpair := Except.ok.inj hcomp
  have hreg0 : reg = regFold [] (names.zip g.sccList) := congrArg Prod.fst hpair
  have hkeys : ((names.zip g.sccList).map (fun q => q.1)).Nodup := by
    have hmf := List.map_fst_zip names g.sccList (le_of_eq (names_length hnames))
    rw [show (names.zip g.sccList).map (fun q => q.1) =
      (names.zip g.sccList).map Prod.fst from rfl, hmf]
    exact hnd
  have hreg : reg = names.zip g.sccList := by
    rw [hreg0, regFold_eq_append _ [] hkeys (fun q _ => rfl)]
    rfl
  subst hreg
  have hsame : ∀ u v, (∃ p ∈ names.zip g.sccList, u ∈ p.2 ∧ v ∈ p.2) ↔
      (∃ c ∈ g.sccList, u ∈ c ∧ v ∈ c) := by
    intro u v
    constructor
    · rintro ⟨p, hp, hup, hvp⟩
      exact ⟨p.2, (List.of_mem_zip hp).2, hup, hvp⟩
    · rintro ⟨c, hc, huc, hvc⟩
      rw [List.mem_iff_getElem] at hc
      obtain ⟨i, hi, hci⟩ := hc
      have hzi : i < (names.zip g.sccList).length := by
        rw [List.length_zip, names_length hnames, Nat.min_self]
        exact hi
      refine ⟨(names.zip g.sccList)[i], List.getElem_mem hzi, ?_, ?_⟩
      · rw [List.getElem_zip]
        rw [hci]
        exact huc
      · rw [List.getElem_zip]
        rw [hci]
        exact hvc
  constructor
  · intro u v
    rw [hsame]
    constructor
    · rintro ⟨c, hcm, huc, hvc⟩
      have hu := sccList_mem_ids hcm u huc
      have hv := sccList_mem_ids hcm v hvc
      have hm := (sccList_same_iff hWF hu hv).mp ⟨c, hcm, huc, hvc⟩
      obtain ⟨h1, h2⟩ := mutualB_sound hm
      exact ⟨hu, hv, h1, h2⟩
    · rintro ⟨hu, hv, h1, h2⟩
      exact (sccList_same_iff hWF hu hv).mpr ((mutualB_iff hWF hu hv).mpr ⟨h1, h2⟩)
  · intro u hu hsing
    obtain ⟨c, hcm, huc⟩ := sccList_cover hWF hu
    have hcall : ∀ v ∈ c, v = u := by
      intro v hvc
      have hv := sccList_mem_ids hcm v hvc
      by_contra hne
      apply hsing v hv hne
      have hm := (sccList_same_iff hWF hu hv).mp ⟨c, hcm, huc, hvc⟩
      exact mutualB_sound hm
    rw [List.mem_iff_getElem] at hcm
    obtain ⟨i, hi, hci⟩ := hcm
    have hzi : i < (names.zip g.sccList).length := by
      rw [List.length_zip, names_length hnames, Nat.min_self]
      exact hi
    refine ⟨(names.zip g.sccList)[i], List.getElem_mem hzi, ?_, ?_⟩
    · rw [List.getElem_zip]
      rw [hci]
      exact huc
    · intro v hv
      rw [List.getElem_zip] at hv
      simp only at hv
      rw [hci] at hv
      exact hcall v hv

/-- C2 counterexample: in the name-collision graph, `a` and `b` are mutually
reachable nodes of an untagged graph, yet no member set of the registry
returned by the compute path contains them (their component was dropped by
the dict overwrite), so they are not placed in the same component. -/
theorem C2_mutual_reachability_counterexample :
    nodeComponentAttrs collGraph = [] ∧
    "a" ∈ collGraph.ids ∧ "b" ∈ collGraph.ids ∧
    collGraph.Reach "a" "b" ∧ collGraph.Reach "b" "a" ∧
    strongly_connected_components n2wTest collGraph "initials" =
      .ok ([("pp", ["c", "d"])], collTagged) ∧
    (∀ p ∈ ([("pp", ["c", "d"])] : List (String × List String)),
      ¬ ("a" ∈ p.2 ∧ "b" ∈ p.2)) := by
  refine ⟨rfl, by decide, by decide, ?_, ?_, rfl, by decide⟩
  · exact Relation.ReflTransGen.single
      (show ("a", "b") ∈ collGraph.edges by decide)
  · exact Relation.ReflTransGen.single
      (show ("b", "a") ∈ collGraph.edges by decide)

/-- C2 witness: the triangle-plus-isolate scenario under `string` naming,
with the mutual-reachability characterization and `d`'s singleton
component. -/
theorem C2_mutual_reachability_witness :
    (∀ u v, (∃ p ∈ ([("C0", ["a", "b", "c"]), ("C1", ["d"])] :
        List (String × List String)), u ∈ p.2 ∧ v ∈ p.2) ↔
      (u ∈ triGraph.ids ∧ v ∈ triGraph.ids ∧
        triGraph.Reach u v ∧ triGraph.Reach v u)) ∧
    (∀ u ∈ triGraph.ids,
      (∀ v ∈ triGraph.ids, v ≠ u → ¬ (triGraph.Reach u v ∧ triGraph.Reach v u)) →
      ∃ p ∈ ([("C0", ["a", "b", "c"]), ("C1", ["d"])] :
        List (String × List String)), u ∈ p.2 ∧ ∀ v ∈ p.2, v = u) :=
  C2_mutual_reachability n2wTest triGraph "string" ["C0", "C1"]
    [("C0", ["a", "b", "c"]), ("C1", ["d"])] triTagged
    (by decide) rfl rfl (by decide) rfl
